import Mathlib

/-!
Verification development for the `kelindar/iostream` binary stream codec.

Bytes are modelled as natural numbers (every byte produced by the writer is
less than 256); Go's `uint64` arithmetic is modelled over `Nat` with explicit
`% 2 ^ 64` where the Go code can wrap, and Go's `int64` is modelled as `Int`
with explicit range side conditions.  Each definition is a direct translation
of the correspondingly named Go function from `writer.go`, `reader.go` and
`source.go`.
-/

namespace Iostream

/-- Error classes surfaced by the decoder: `truncated` stands for the
`io.EOF` / `io.ErrUnexpectedEOF` family (source exhausted before the
requested primitive could be read), `overflow` for the
`binary: varint overflows a 64-bit integer` error. -/
inductive RErr
  | truncated
  | overflow
deriving DecidableEq, Repr

/-- The byte sequence `Writer.WriteUvarint` emits for input `x` (the contents
of `w.scratch[:i+1]` handed to `w.write`):

    i := 0
    for x >= 0x80 { w.scratch[i] = byte(x) | 0x80; x >>= 7; i++ }
    w.scratch[i] = byte(x)

`byte(x)` is `x % 256`. -/
def uvarintBytes (x : Nat) : List Nat :=
  if h : 0x80 ≤ x then
    ((x % 256) ||| 0x80) :: uvarintBytes (x >>> 7)
  else
    [x % 256]
termination_by x
decreasing_by
  simp only [Nat.shiftRight_eq_div_pow]
  exact Nat.div_lt_self (Nat.lt_of_lt_of_le (by norm_num) h) (by norm_num)

/-- The zigzag mapping performed by `Writer.WriteVarint` before the unsigned
encoding: `x := uint64(v) << 1; if v < 0 { x = ^x }`, all in `uint64`
arithmetic (`uint64(v)` is `v` taken modulo `2^64`, `^x` is `2^64 - 1 - x`). -/
def zigzag (v : Int) : Nat :=
  let x : Nat := ((v % (2 ^ 64 : Nat)).toNat * 2) % 2 ^ 64
  if v < 0 then 2 ^ 64 - 1 - x else x

/-- The byte sequence `Writer.WriteVarint` emits: zigzag then `WriteUvarint`'s
loop applied to the mapped value. -/
def varintBytes (v : Int) : List Nat :=
  uvarintBytes (zigzag v)

/-- Bytes emitted by `Writer.WriteUint8`. -/
def uint8Bytes (v : Nat) : List Nat := [v % 256]

/-- Bytes emitted by `Writer.WriteUint16` (little endian). -/
def uint16Bytes (v : Nat) : List Nat := [v % 256, (v >>> 8) % 256]

/-- Bytes emitted by `Writer.WriteUint32` (little endian). -/
def uint32Bytes (v : Nat) : List Nat :=
  [v % 256, (v >>> 8) % 256, (v >>> 16) % 256, (v >>> 24) % 256]

/-- Bytes emitted by `Writer.WriteUint64` (little endian). -/
def uint64Bytes (v : Nat) : List Nat :=
  [v % 256, (v >>> 8) % 256, (v >>> 16) % 256, (v >>> 24) % 256,
   (v >>> 32) % 256, (v >>> 40) % 256, (v >>> 48) % 256, (v >>> 56) % 256]

/-- Bytes emitted by `Writer.WriteBool`: `scratch[0] = 0; if v { scratch[0] = 1 }`. -/
def boolBytes (v : Bool) : List Nat := [if v then 1 else 0]

/-- Bytes emitted by `Writer.WriteBytes`: unsigned-varint length, then the
raw bytes. -/
def bytesBytes (v : List Nat) : List Nat :=
  uvarintBytes v.length ++ v

/-- Bytes emitted by `Writer.WriteString`; a Go string is its byte sequence
(`toBytes` is a no-copy reinterpretation), so this coincides with
`WriteBytes`. -/
def stringBytes (v : List Nat) : List Nat :=
  bytesBytes v

/-- Bytes emitted by `Writer.WriteFloat32`: `WriteUint32(math.Float32bits v)`.
The float is represented by its IEEE-754 bit pattern (`bits`), which is what
`math.Float32bits` extracts. -/
def float32Bytes (bits : Nat) : List Nat := uint32Bytes bits

/-- Bytes emitted by `Writer.WriteFloat64`: `WriteUint64(math.Float64bits v)`. -/
def float64Bytes (bits : Nat) : List Nat := uint64Bytes bits

/-- `uint64(v)` for an `int64` value `v`: reduction modulo `2^64`. -/
def toUint64 (v : Int) : Nat := (v % (2 ^ 64 : Nat)).toNat

/-- `uint32(v)` for an `int32` value. -/
def toUint32 (v : Int) : Nat := (v % (2 ^ 32 : Nat)).toNat

/-- `uint16(v)` for an `int16` value. -/
def toUint16 (v : Int) : Nat := (v % (2 ^ 16 : Nat)).toNat

/-- `uint8(v)` for an `int8` value. -/
def toUint8 (v : Int) : Nat := (v % (2 ^ 8 : Nat)).toNat

/-- `int64(u)` for a `uint64` value: two's-complement reinterpretation. -/
def toInt64 (u : Nat) : Int := if u < 2 ^ 63 then (u : Int) else (u : Int) - 2 ^ 64

/-- `int32(u)` for a `uint32` value. -/
def toInt32 (u : Nat) : Int := if u < 2 ^ 31 then (u : Int) else (u : Int) - 2 ^ 32

/-- `int16(u)` for a `uint16` value. -/
def toInt16 (u : Nat) : Int := if u < 2 ^ 15 then (u : Int) else (u : Int) - 2 ^ 16

/-- `int8(u)` for a `uint8` value. -/
def toInt8 (u : Nat) : Int := if u < 2 ^ 7 then (u : Int) else (u : Int) - 2 ^ 8

/-- `sliceSource`: the materialized source, a borrowed buffer plus a reading
cursor. -/
structure SliceSrc where
  buffer : List Nat
  offset : Nat
deriving DecidableEq, Repr

/-- `sliceSource.ReadByte`: bounds check, then read one byte and advance. -/
def SliceSrc.ReadByte (r : SliceSrc) : Except RErr Nat × SliceSrc :=
  match r.buffer[r.offset]? with
  | none => (.error .truncated, r)
  | some b => (.ok b, ⟨r.buffer, r.offset + 1⟩)

/-- `sliceSource.Slice`: `if r.offset+n > len(r.buffer) { return nil, io.EOF }`,
else return the borrowed sub-slice `r.buffer[cur : cur+n]` and advance. -/
def SliceSrc.Slice (r : SliceSrc) (n : Nat) : Except RErr (List Nat) × SliceSrc :=
  if r.buffer.length < r.offset + n then (.error .truncated, r)
  else (.ok ((r.buffer.drop r.offset).take n), ⟨r.buffer, r.offset + n⟩)

/-- The loop body of `sliceSource.ReadUvarint`, with the remaining iteration
count (`fuel`, initially 10 = `maxVarintLen64 / 7`) made explicit; `s` is the
shift of the current 7-bit group.  Mirrors:

    for s := 0; s < maxVarintLen64; s += 7 {
      if r.offset >= len(r.buffer) { return 0, io.EOF }
      b := r.buffer[r.offset]; r.offset++
      if b < 0x80 {
        if s == maxVarintLen64-7 && b > 1 { return x, overflow }
        return x | uint64(b)<<s, nil
      }
      x |= uint64(b&0x7f) << s
    }
    return x, overflow

The `% 2 ^ 64` records the wrap-around of the `uint64` shifts. -/
def sliceUvarintLoop : Nat → Nat → Nat → SliceSrc → Nat × Option RErr × SliceSrc
  | 0, _, x, r => (x, some .overflow, r)
  | fuel + 1, s, x, r =>
    match r.buffer[r.offset]? with
    | none => (0, some .truncated, r)
    | some b =>
      let r' : SliceSrc := ⟨r.buffer, r.offset + 1⟩
      if b < 0x80 then
        if s = 63 ∧ 1 < b then (x, some .overflow, r')
        else (x ||| ((b <<< s) % 2 ^ 64), none, r')
      else sliceUvarintLoop fuel (s + 7) (x ||| (((b &&& 0x7f) <<< s) % 2 ^ 64)) r'

/-- `sliceSource.ReadUvarint`. -/
def SliceSrc.ReadUvarint (r : SliceSrc) : Nat × Option RErr × SliceSrc :=
  sliceUvarintLoop 10 0 0 r

/-- The zigzag unmapping in `ReadVarint`:
`x := int64(ux >> 1); if ux&1 != 0 { x = ^x }` (`^x` on `int64` is `-x - 1`). -/
def zigzagDecode (ux : Nat) : Int :=
  let x : Int := ((ux >>> 1 : Nat) : Int)
  if ux &&& 1 ≠ 0 then -x - 1 else x

/-- `sliceSource.ReadVarint`: decode an unsigned varint, then unmap — also in
the presence of an error (the carried value is then meaningless). -/
def SliceSrc.ReadVarint (r : SliceSrc) : Int × Option RErr × SliceSrc :=
  let res := r.ReadUvarint
  (zigzagDecode res.1, res.2.1, res.2.2)

/-- `capacityFor`: the next power of 2 via bit smearing, translated verbatim
(the Go `uint` is 64 bits wide, so none of the shifts or the `v--`/`v++`
wrap for the arguments that occur here, and `Nat` subtraction agrees with the
Go `v--` for `v ≥ 1`):

    v--
    v |= v >> 1; v |= v >> 2; v |= v >> 4; v |= v >> 8; v |= v >> 16
    v++
-/
def capacityFor (v : Nat) : Nat :=
  let v1 := v - 1
  let v2 := v1 ||| (v1 >>> 1)
  let v3 := v2 ||| (v2 >>> 2)
  let v4 := v3 ||| (v3 >>> 4)
  let v5 := v4 ||| (v4 >>> 8)
  let v6 := v5 ||| (v5 >>> 16)
  v6 + 1

/-- `streamSource`: a source over an incremental supplier.  `data` is the byte
sequence the wrapped `io.Reader` will deliver; `scratchLen` is `len(r.scratch)`,
the length of the internally owned scratch buffer (its contents are returned
by `Slice` and immediately copied in this model, so only its length is
tracked). -/
structure StreamSrc where
  data : List Nat
  scratchLen : Nat
deriving DecidableEq, Repr

/-- The stream source's byte-at-a-time read (via its `io.ByteReader`). -/
def StreamSrc.ReadByte (r : StreamSrc) : Except RErr Nat × StreamSrc :=
  match r.data with
  | [] => (.error .truncated, r)
  | b :: rest => (.ok b, ⟨rest, r.scratchLen⟩)

/-- `streamSource.Slice`:

    if len(r.scratch) < n { r.scratch = make([]byte, capacityFor(uint(n+1))) }
    _, err := io.ReadAtLeast(r.Reader, r.scratch[:n], n)
    return r.scratch[:n], err

`io.ReadAtLeast` succeeds immediately when `n = 0`, reads exactly `n` bytes
when at least `n` are available, and otherwise consumes everything and fails
with an EOF-class error. -/
def StreamSrc.Slice (r : StreamSrc) (n : Nat) : Except RErr (List Nat) × StreamSrc :=
  let scratchLen := if r.scratchLen < n then capacityFor (n + 1) else r.scratchLen
  if n = 0 then (.ok [], ⟨r.data, scratchLen⟩)
  else if n ≤ r.data.length then (.ok (r.data.take n), ⟨r.data.drop n, scratchLen⟩)
  else (.error .truncated, ⟨[], scratchLen⟩)

/-- Modelled from the spec: `streamSource.ReadUvarint` delegates to
`encoding/binary.ReadUvarint` (standard library, not part of this
repository's sources), which per §4.1 of the spec reads one byte at a time,
accumulates the low 7 bits of each byte shifted by `7 * position`, stops at a
byte with the continuation bit clear, fails with `Truncated` when the source
exhausts first, and fails with `Overflow` when a 10th byte is read whose
value exceeds 1.  `fuel` is the remaining iteration count (initially 10). -/
def streamUvarintLoop : Nat → Nat → Nat → StreamSrc → Nat × Option RErr × StreamSrc
  | 0, _, x, r => (x, some .overflow, r)
  | fuel + 1, s, x, r =>
    match r.data with
    | [] => (x, some .truncated, r)
    | b :: rest =>
      let r' : StreamSrc := ⟨rest, r.scratchLen⟩
      if b < 0x80 then
        if s = 63 ∧ 1 < b then (x, some .overflow, r')
        else (x ||| ((b <<< s) % 2 ^ 64), none, r')
      else streamUvarintLoop fuel (s + 7) (x ||| (((b &&& 0x7f) <<< s) % 2 ^ 64)) r'

/-- Modelled from the spec: `streamSource.ReadUvarint` (see
`streamUvarintLoop`). -/
def StreamSrc.ReadUvarint (r : StreamSrc) : Nat × Option RErr × StreamSrc :=
  streamUvarintLoop 10 0 0 r

/-- Modelled from the spec: `streamSource.ReadVarint` delegates to
`encoding/binary.ReadVarint`: decode an unsigned varint, then zigzag-unmap
(also on the error path, per §4.1 of the spec). -/
def StreamSrc.ReadVarint (r : StreamSrc) : Int × Option RErr × StreamSrc :=
  let res := r.ReadUvarint
  (zigzagDecode res.1, res.2.1, res.2.2)

/-- `source`: the contract a decoder needs; its two implementations in the
package are `sliceSource` and `streamSource`. -/
inductive Src
  | slice (s : SliceSrc)
  | stream (s : StreamSrc)
deriving DecidableEq, Repr

def Src.ReadByte : Src → Except RErr Nat × Src
  | .slice s => let res := s.ReadByte; (res.1, .slice res.2)
  | .stream s => let res := s.ReadByte; (res.1, .stream res.2)

def Src.Slice : Src → Nat → Except RErr (List Nat) × Src
  | .slice s, n => let res := s.Slice n; (res.1, .slice res.2)
  | .stream s, n => let res := s.Slice n; (res.1, .stream res.2)

def Src.ReadUvarint : Src → Nat × Option RErr × Src
  | .slice s => let res := s.ReadUvarint; (res.1, res.2.1, .slice res.2.2)
  | .stream s => let res := s.ReadUvarint; (res.1, res.2.1, .stream res.2.2)

def Src.ReadVarint : Src → Int × Option RErr × Src
  | .slice s => let res := s.ReadVarint; (res.1, res.2.1, .slice res.2.2)
  | .stream s => let res := s.ReadVarint; (res.1, res.2.1, .stream res.2.2)

/-- `io.ReadAtLeast(src, out, n)` over a slice source, as used by
`Reader.ReadBytes`: succeeds immediately for `n = 0`; when at least `n` bytes
remain, a single `sliceSource.Read` copies them and advances the cursor;
otherwise the first `Read` consumes everything that remains and the next one
reports EOF. -/
def SliceSrc.ReadFull (r : SliceSrc) (n : Nat) : Except RErr (List Nat) × SliceSrc :=
  if n = 0 then (.ok [], r)
  else if r.offset + n ≤ r.buffer.length then
    (.ok ((r.buffer.drop r.offset).take n), ⟨r.buffer, r.offset + n⟩)
  else (.error .truncated, ⟨r.buffer, r.buffer.length⟩)

/-- `io.ReadAtLeast(src, out, n)` over a stream source. -/
def StreamSrc.ReadFull (r : StreamSrc) (n : Nat) : Except RErr (List Nat) × StreamSrc :=
  if n = 0 then (.ok [], r)
  else if n ≤ r.data.length then (.ok (r.data.take n), ⟨r.data.drop n, r.scratchLen⟩)
  else (.error .truncated, ⟨[], r.scratchLen⟩)

def Src.ReadFull : Src → Nat → Except RErr (List Nat) × Src
  | .slice s, n => let res := s.ReadFull n; (res.1, .slice res.2)
  | .stream s, n => let res := s.ReadFull n; (res.1, .stream res.2)

/-- `Reader`: a stateful façade over a source (the 10-byte scratch array of
the Go struct plays no role in the read operations modelled here). -/
structure Reader where
  src : Src
deriving DecidableEq, Repr

/-- `Reader.ReadUvarint`. -/
def Reader.ReadUvarint (r : Reader) : Nat × Option RErr × Reader :=
  let res := r.src.ReadUvarint
  (res.1, res.2.1, ⟨res.2.2⟩)

/-- `Reader.ReadVarint`. -/
def Reader.ReadVarint (r : Reader) : Int × Option RErr × Reader :=
  let res := r.src.ReadVarint
  (res.1, res.2.1, ⟨res.2.2⟩)

/-- `Reader.ReadUint8`: one byte via `src.ReadByte`. -/
def Reader.ReadUint8 (r : Reader) : Except RErr Nat × Reader :=
  let res := r.src.ReadByte
  (res.1, ⟨res.2⟩)

/-- `Reader.ReadUint16`: `Slice(2)` then little-endian assembly
`uint16(b[0]) | uint16(b[1])<<8`. -/
def Reader.ReadUint16 (r : Reader) : Except RErr Nat × Reader :=
  match r.src.Slice 2 with
  | (.ok b, s') => (.ok ((b.getD 0 0) ||| ((b.getD 1 0) <<< 8)), ⟨s'⟩)
  | (.error e, s') => (.error e, ⟨s'⟩)

/-- `Reader.ReadUint32`: `Slice(4)` then little-endian assembly. -/
def Reader.ReadUint32 (r : Reader) : Except RErr Nat × Reader :=
  match r.src.Slice 4 with
  | (.ok b, s') =>
    (.ok ((b.getD 0 0) ||| ((b.getD 1 0) <<< 8) ||| ((b.getD 2 0) <<< 16) |||
      ((b.getD 3 0) <<< 24)), ⟨s'⟩)
  | (.error e, s') => (.error e, ⟨s'⟩)

/-- `Reader.ReadUint64`: `Slice(8)` then little-endian assembly. -/
def Reader.ReadUint64 (r : Reader) : Except RErr Nat × Reader :=
  match r.src.Slice 8 with
  | (.ok b, s') =>
    (.ok ((b.getD 0 0) ||| ((b.getD 1 0) <<< 8) ||| ((b.getD 2 0) <<< 16) |||
      ((b.getD 3 0) <<< 24) ||| ((b.getD 4 0) <<< 32) ||| ((b.getD 5 0) <<< 40) |||
      ((b.getD 6 0) <<< 48) ||| ((b.getD 7 0) <<< 56)), ⟨s'⟩)
  | (.error e, s') => (.error e, ⟨s'⟩)

/-- `Reader.ReadInt8`: `int8(u)` of `ReadUint8`. -/
def Reader.ReadInt8 (r : Reader) : Except RErr Int × Reader :=
  let res := r.ReadUint8
  (res.1.map toInt8, res.2)

/-- `Reader.ReadInt16`: `int16(u)` of `ReadUint16`. -/
def Reader.ReadInt16 (r : Reader) : Except RErr Int × Reader :=
  let res := r.ReadUint16
  (res.1.map toInt16, res.2)

/-- `Reader.ReadInt32`: `int32(u)` of `ReadUint32`. -/
def Reader.ReadInt32 (r : Reader) : Except RErr Int × Reader :=
  let res := r.ReadUint32
  (res.1.map toInt32, res.2)

/-- `Reader.ReadInt64`: `int64(u)` of `ReadUint64`. -/
def Reader.ReadInt64 (r : Reader) : Except RErr Int × Reader :=
  let res := r.ReadUint64
  (res.1.map toInt64, res.2)

/-- `Reader.ReadFloat32`: `math.Float32frombits` of `ReadUint32`; the float
value is represented by its IEEE-754 bit pattern, which `Float32frombits`
reinterprets bit-for-bit. -/
def Reader.ReadFloat32 (r : Reader) : Except RErr Nat × Reader :=
  r.ReadUint32

/-- `Reader.ReadFloat64`: `math.Float64frombits` of `ReadUint64`. -/
def Reader.ReadFloat64 (r : Reader) : Except RErr Nat × Reader :=
  r.ReadUint64

/-- `Reader.ReadBool`: read one byte `b`; the result is `b == 1`. -/
def Reader.ReadBool (r : Reader) : Except RErr Bool × Reader :=
  match r.src.ReadByte with
  | (.ok b, s') => (.ok (b == 1), ⟨s'⟩)
  | (.error e, s') => (.error e, ⟨s'⟩)

/-- `Reader.ReadBytes`: decode an unsigned varint size, then read exactly that
many bytes through `io.ReadAtLeast` into a freshly allocated buffer. -/
def Reader.ReadBytes (r : Reader) : Except RErr (List Nat) × Reader :=
  match r.src.ReadUvarint with
  | (size, none, s') => let res := s'.ReadFull size; (res.1, ⟨res.2⟩)
  | (_, some e, s') => (.error e, ⟨s'⟩)

/-- `Reader.ReadString`: `ReadBytes`, reinterpreted as a string without a copy
(`toString`); a Go string is modelled as its byte sequence. -/
def Reader.ReadString (r : Reader) : Except RErr (List Nat) × Reader :=
  r.ReadBytes

/-- The relevant shapes an `io.Reader` passed to `newSource`/`NewReader` can
take: Go `nil`, a `*bytes.Buffer` (whose remaining contents are `data`), one
of the two source implementations, a `*Reader`, or a generic reader that
will deliver `data` incrementally. -/
inductive IoReader
  | null
  | bytesBuffer (data : List Nat)
  | sliceSrc (s : SliceSrc)
  | streamSrc (s : StreamSrc)
  | reader (r : Reader)
  | generic (data : List Nat)
deriving DecidableEq, Repr

/-- `newSource` figures out the most efficient source for the provided type:

    case nil:            newSliceSource(nil)
    case *bytes.Buffer:  newSliceSource(v.Bytes())
    case *sliceSource:   v
    default:             if it already implements source, keep it,
                         else newStreamSource(r)

A `*Reader` falls into the default branch and implements `source`, so it is
kept as-is; here its underlying source stands for it.  `newStreamSource`
starts with a nil scratch buffer (`scratchLen = 0`). -/
def newSource : IoReader → Src
  | .null => .slice ⟨[], 0⟩
  | .bytesBuffer data => .slice ⟨data, 0⟩
  | .sliceSrc s => .slice s
  | .streamSrc s => .stream s
  | .reader r => r.src
  | .generic data => .stream ⟨data, 0⟩

/-- `NewReader`: `if r, ok := src.(*Reader); ok { return r }`, else wrap
`newSource src`. -/
def NewReader : IoReader → Reader
  | .reader r => r
  | src => ⟨newSource src⟩

/-- A byte sink (`io.Writer`): from a sink state and a payload it produces the
number of bytes reported written, an error flag, and the next sink state. -/
structure Sink (σ : Type) where
  writeTo : σ → List Nat → Nat × Bool × σ

/-- The `io.Writer` contract: the reported count never exceeds the payload
length, and a write that reports no error reports the full length. -/
def Sink.Lawful (snk : Sink σ) : Prop :=
  ∀ s p, (snk.writeTo s p).1 ≤ p.length ∧
    ((snk.writeTo s p).2.1 = false → (snk.writeTo s p).1 = p.length)

/-- The `Writer` struct: the wrapped sink state and the running byte offset
(`int64` in Go; the offset only ever grows by reported counts, so `Nat`). -/
structure Writer (σ : Type) where
  out : σ
  offset : Nat

/-- `Writer.Offset`. -/
def Writer.Offset (w : Writer σ) : Nat := w.offset

/-- `Writer.write`: `n, err := w.out.Write(p); w.offset += int64(n); return err`. -/
def Writer.write (snk : Sink σ) (w : Writer σ) (p : List Nat) : Bool × Writer σ :=
  let res := snk.writeTo w.out p
  (res.2.1, ⟨res.2.2, w.offset + res.1⟩)

/-- A sequence of `Writer.write` calls (the payloads successive `WriteX`
operations hand to `w.write`), aborting at the first error exactly as the
`WriteX`/`WriteRange` compositions do.  Returns the error flag and the final
writer. -/
def Writer.writeAll (snk : Sink σ) (w : Writer σ) : List (List Nat) → Bool × Writer σ
  | [] => (false, w)
  | p :: ps =>
    let res := w.write snk p
    if res.1 then res
    else res.2.writeAll snk ps

/-- `sliceSource.Read`: `if r.offset >= len(r.buffer) { return 0, io.EOF }`,
else copy `min(len(p), remaining)` bytes and advance; `n` is the capacity of
the destination slice `p`, and the copied bytes are returned. -/
def SliceSrc.Read (r : SliceSrc) (n : Nat) : Except RErr (List Nat) × SliceSrc :=
  if r.buffer.length ≤ r.offset then (.error .truncated, r)
  else
    let m := min n (r.buffer.length - r.offset)
    (.ok ((r.buffer.drop r.offset).take m), ⟨r.buffer, r.offset + m⟩)

/-- The property the spec's words ascribe to the scratch growth target: being
THE next power of two greater than or equal to `m` (a power of two, at least
`m`, and no larger than any other such power).  Stated from the spec for
comparison with `capacityFor`. -/
def IsNextPow2Ge (p m : Nat) : Prop :=
  (∃ k, p = 2 ^ k) ∧ m ≤ p ∧ ∀ q, (∃ k, q = 2 ^ k) → m ≤ q → p ≤ q

/-- One smearing step of `capacityFor`: `v |= v >> d`.  `capacityFor v` is
`orShift (orShift (orShift (orShift (orShift (v-1) 1) 2) 4) 8) 16 + 1`
definitionally. -/
def orShift (u d : Nat) : Nat := u ||| (u >>> d)

/-- A sink that accepts everything (`bytes.Buffer`-like): reports the full
length, no error, and appends to its state. -/
def listSink : Sink (List Nat) :=
  ⟨fun s p => (p.length, false, s ++ p)⟩

/-- A sink with limited remaining capacity (the tests' `limitWriter`): a write
beyond the limit reports 0 bytes and an error. -/
def limitSink : Sink Nat :=
  ⟨fun remaining p =>
    if p.length ≤ remaining then (p.length, false, remaining - p.length)
    else (0, true, remaining)⟩

/-! ### Bit-arithmetic helpers -/

theorem lor_shl_eq_add {a : Nat} (b k : Nat) (h : a < 2 ^ k) :
    a ||| (b <<< k) = 2 ^ k * b + a := by
  rw [Nat.lor_comm, Nat.shiftLeft_eq, Nat.mul_comm b (2 ^ k), ← Nat.mul_add_lt_is_or h]

theorem mod256_lor_128 (x : Nat) : (x % 256) ||| 128 = x % 128 + 128 := by
  have h256 : x % 256 = x % 128 + 128 * (x / 128 % 2) := by
    have h1 : x % 256 % 128 = x % 128 := Nat.mod_mod_of_dvd x (by norm_num)
    have h2 : x % 256 / 128 = x / 128 % 2 := by
      have := Nat.mod_mul_right_div_self x 128 2
      simpa using this
    omega
  have hlt : x % 128 < 2 ^ 7 := Nat.mod_lt _ (by norm_num)
  have hdisj : (128 : Nat) + x % 128 = 128 ||| (x % 128) := by
    have := Nat.mul_add_lt_is_or (i := 7) (a := 1) hlt
    simpa using this
  have hcase : x / 128 % 2 = 0 ∨ x / 128 % 2 = 1 := by omega
  rcases hcase with h | h
  · rw [h256, h]
    simp only [Nat.mul_zero, Nat.add_zero]
    rw [Nat.lor_comm, ← hdisj]
    omega
  · rw [h256, h, Nat.mul_one]
    have e : x % 128 + 128 = 128 ||| (x % 128) := by omega
    have h2 : (128 : Nat) ||| 128 = 128 := by decide
    rw [e, Nat.lor_comm (128 : Nat) (x % 128), Nat.lor_assoc, h2,
      Nat.lor_comm (x % 128) 128, ← hdisj]

theorem mod256_lor_128_and (x : Nat) : ((x % 256) ||| 128) &&& 127 = x % 128 := by
  rw [mod256_lor_128]
  have : (127 : Nat) = 2 ^ 7 - 1 := by norm_num
  rw [this, Nat.and_pow_two_sub_one_eq_mod]
  omega

theorem shl_split7 (x s : Nat) :
    ((x % 128) <<< s) ||| ((x >>> 7) <<< (s + 7)) = x <<< s := by
  have hpow : (2 : Nat) ^ (s + 7) = 128 * 2 ^ s := by
    rw [Nat.pow_add]; ring
  have hlt : (x % 128) * 2 ^ s < 2 ^ (s + 7) := by
    have h7 : x % 128 < 128 := Nat.mod_lt _ (by norm_num)
    rw [hpow]
    exact (Nat.mul_lt_mul_right (Nat.two_pow_pos s)).mpr h7
  simp only [Nat.shiftLeft_eq, Nat.shiftRight_eq_div_pow]
  rw [Nat.lor_comm, Nat.mul_comm (x / 2 ^ 7) (2 ^ (s + 7)), ← Nat.mul_add_lt_is_or hlt]
  have hx : 128 * (x / 2 ^ 7) + x % 128 = x := by
    have h128 : (2 : Nat) ^ 7 = 128 := by norm_num
    rw [h128]
    omega
  calc 2 ^ (s + 7) * (x / 2 ^ 7) + x % 128 * 2 ^ s
      = (128 * (x / 2 ^ 7) + x % 128) * 2 ^ s := by rw [hpow]; ring
    _ = x * 2 ^ s := by rw [hx]

/-! ### List helper -/

theorem getElem?_of_drop_eq_cons {α : Type} {l : List α} {n : Nat} {a : α} {t : List α}
    (h : l.drop n = a :: t) : l[n]? = some a ∧ l.drop (n + 1) = t ∧ n < l.length := by
  induction l generalizing n with
  | nil => simp at h
  | cons b l' ih =>
    cases n with
    | zero => simp_all
    | succ m =>
      have := ih (n := m) (by simpa using h)
      simpa using this

/-! ### Unsigned varint: encode/decode lemmas -/

theorem uvarintBytes_length_le : ∀ (k x : Nat), 0 < k → x < 2 ^ (7 * k) →
    (uvarintBytes x).length ≤ k := by
  intro k
  induction k with
  | zero => omega
  | succ k ih =>
    intro x _ hx
    rw [uvarintBytes]
    by_cases h : 0x80 ≤ x
    · rw [dif_pos h]
      have hk : 0 < k := by
        rcases Nat.eq_zero_or_pos k with rfl | hk
        · norm_num at hx
          omega
        · exact hk
      have hdiv : x >>> 7 < 2 ^ (7 * k) := by
        rw [Nat.shiftRight_eq_div_pow]
        have : x < 2 ^ (7 * k) * 2 ^ 7 := by
          rw [← Nat.pow_add]
          have : 7 * k + 7 = 7 * (k + 1) := by ring
          rw [this]
          exact hx
        exact Nat.div_lt_of_lt_mul (by omega)
      have := ih (x >>> 7) hk hdiv
      simpa using this
    · rw [dif_neg h]
      simp

theorem uvarintBytes_ne_nil (x : Nat) : uvarintBytes x ≠ [] := by
  rw [uvarintBytes]
  by_cases h : 0x80 ≤ x
  · rw [dif_pos h]; simp
  · rw [dif_neg h]; simp

/-- Decoding the loop of `sliceSource.ReadUvarint` over a buffer whose
remaining bytes start with a full unsigned-varint encoding yields the encoded
value and advances the cursor past exactly the encoding. -/
theorem sliceUvarintLoop_encode (x : Nat) : ∀ (fuel s acc off : Nat) (buf rest : List Nat),
    buf.drop off = uvarintBytes x ++ rest →
    x * 2 ^ s < 2 ^ 64 →
    s + 7 * fuel = 70 →
    0 < fuel →
    sliceUvarintLoop fuel s acc ⟨buf, off⟩ =
      (acc ||| (x <<< s), none, ⟨buf, off + (uvarintBytes x).length⟩) := by
  induction x using Nat.strong_induction_on with
  | _ x ih =>
    intro fuel s acc off buf rest hdrop hval hfs hfuel
    rw [uvarintBytes] at hdrop ⊢
    by_cases h : 0x80 ≤ x
    · rw [dif_pos h] at hdrop ⊢
      simp only [List.cons_append] at hdrop
      obtain ⟨hget, hdrop', hoff⟩ := getElem?_of_drop_eq_cons hdrop
      obtain ⟨fuel, rfl⟩ : ∃ f, fuel = f + 1 := ⟨fuel - 1, by omega⟩
      have hble : ¬((x % 256) ||| 128 < 0x80) := by
        rw [mod256_lor_128]
        omega
      have hxd : x >>> 7 < x := by
        rw [Nat.shiftRight_eq_div_pow]
        exact Nat.div_lt_self (by omega) (by norm_num)
      have hvd : (x >>> 7) * 2 ^ (s + 7) < 2 ^ 64 := by
        rw [Nat.shiftRight_eq_div_pow, Nat.pow_add]
        have : x / 2 ^ 7 * (2 ^ s * 2 ^ 7) = (x / 2 ^ 7 * 2 ^ 7) * 2 ^ s := by ring
        rw [this]
        have hle : x / 2 ^ 7 * 2 ^ 7 ≤ x := Nat.div_mul_le_self x (2 ^ 7)
        calc (x / 2 ^ 7 * 2 ^ 7) * 2 ^ s ≤ x * 2 ^ s :=
              Nat.mul_le_mul_right _ hle
          _ < 2 ^ 64 := hval
      have hs7 : s + 7 ≤ 63 := by
        have hx1 : 1 ≤ x >>> 7 := by
          rw [Nat.shiftRight_eq_div_pow]
          have : 2 ^ 7 ≤ x := by norm_num at h ⊢; omega
          exact Nat.one_le_div_iff (by norm_num) |>.mpr this
        have : 2 ^ (s + 7) < 2 ^ 64 := by
          calc 2 ^ (s + 7) = 1 * 2 ^ (s + 7) := by ring
            _ ≤ (x >>> 7) * 2 ^ (s + 7) := Nat.mul_le_mul_right _ hx1
            _ < 2 ^ 64 := hvd
        have := (Nat.pow_lt_pow_iff_right (a := 2) (by norm_num)).mp this
        omega
      have hfuel1 : 0 < fuel := by omega
      have hmask : ((x % 256) ||| 128) &&& 0x7f = x % 128 := mod256_lor_128_and x
      have hmod : (((x % 128) <<< s) % 2 ^ 64) = (x % 128) <<< s := by
        apply Nat.mod_eq_of_lt
        rw [Nat.shiftLeft_eq]
        calc (x % 128) * 2 ^ s ≤ x * 2 ^ s := Nat.mul_le_mul_right _ (Nat.mod_le x 128)
          _ < 2 ^ 64 := hval
      have step : sliceUvarintLoop (fuel + 1) s acc ⟨buf, off⟩ =
          sliceUvarintLoop fuel (s + 7) (acc ||| ((x % 128) <<< s)) ⟨buf, off + 1⟩ := by
        simp only [sliceUvarintLoop, hget, hble, if_false, hmask, hmod]
      rw [step]
      rw [ih (x >>> 7) hxd fuel (s + 7) (acc ||| ((x % 128) <<< s)) (off + 1) buf rest
        hdrop' hvd (by omega) hfuel1]
      have hcomb : (acc ||| ((x % 128) <<< s)) ||| ((x >>> 7) <<< (s + 7)) =
          acc ||| (x <<< s) := by
        rw [Nat.lor_assoc, shl_split7]
      rw [hcomb]
      simp only [List.length_cons]
      have hoffeq : off + 1 + (uvarintBytes (x >>> 7)).length =
          off + ((uvarintBytes (x >>> 7)).length + 1) := by omega
      rw [hoffeq]
    · rw [dif_neg h] at hdrop ⊢
      have hxlt : x < 128 := by omega
      have hx256 : x % 256 = x := Nat.mod_eq_of_lt (by omega)
      rw [hx256] at hdrop
      simp only [List.cons_append, List.nil_append] at hdrop
      obtain ⟨hget, hdrop', hoff⟩ := getElem?_of_drop_eq_cons hdrop
      obtain ⟨fuel, rfl⟩ : ∃ f, fuel = f + 1 := ⟨fuel - 1, by omega⟩
      have hblt : x < 0x80 := hxlt
      have hnotofl : ¬(s = 63 ∧ 1 < x) := by
        rintro ⟨rfl, hx1⟩
        have : 2 * 2 ^ 63 ≤ x * 2 ^ 63 := Nat.mul_le_mul_right _ (by omega)
        norm_num at this
        omega
      have hmod : ((x <<< s) % 2 ^ 64) = x <<< s := by
        apply Nat.mod_eq_of_lt
        rw [Nat.shiftLeft_eq]
        exact hval
      simp only [sliceUvarintLoop, hget, hblt, if_true, hnotofl, if_false, hmod,
        List.length_cons, List.length_nil]

/-- If every remaining byte has the continuation bit set and there are fewer
remaining bytes than loop iterations left, the decode loop runs off the end
of the buffer and reports `Truncated`. -/
theorem sliceUvarintLoop_trunc : ∀ (fuel s acc : Nat) (buf : List Nat) (off : Nat),
    (∀ j b, off ≤ j → buf[j]? = some b → 0x80 ≤ b) →
    buf.length - off < fuel →
    (sliceUvarintLoop fuel s acc ⟨buf, off⟩).2.1 = some .truncated := by
  intro fuel
  induction fuel with
  | zero => omega
  | succ fuel ih =>
    intro s acc buf off hcont hlen
    match hget : buf[off]? with
    | none => simp only [sliceUvarintLoop, hget]
    | some b =>
      have hb : 0x80 ≤ b := hcont off b (Nat.le_refl _) hget
      have hble : ¬(b < 0x80) := by omega
      have hoff : off < buf.length := by
        by_contra hc
        rw [List.getElem?_eq_none_iff.mpr (by omega)] at hget
        exact Option.noConfusion hget
      simp only [sliceUvarintLoop, hget, hble, if_false]
      exact ih _ _ buf (off + 1) (fun j c hj hc => hcont j c (by omega) hc) (by omega)

/-- Every byte of a strict prefix of an unsigned-varint encoding has the
continuation bit set (all bytes except the terminal one are emitted with
`| 0x80`). -/
theorem uvarintBytes_take_cont (x : Nat) : ∀ (k j b : Nat),
    k < (uvarintBytes x).length →
    ((uvarintBytes x).take k)[j]? = some b → 0x80 ≤ b := by
  induction x using Nat.strong_induction_on with
  | _ x ih =>
    intro k j b hk hget
    rw [uvarintBytes] at hk hget
    by_cases h : 0x80 ≤ x
    · rw [dif_pos h] at hk hget
      match k, hk with
      | 0, _ => simp at hget
      | k + 1, hk =>
        simp only [List.take_succ_cons] at hget
        match j with
        | 0 =>
          simp only [List.getElem?_cons_zero, Option.some.injEq] at hget
          rw [← hget, mod256_lor_128]
          omega
        | j + 1 =>
          simp only [List.getElem?_cons_succ] at hget
          have hxd : x >>> 7 < x := by
            rw [Nat.shiftRight_eq_div_pow]
            exact Nat.div_lt_self (by omega) (by norm_num)
          exact ih (x >>> 7) hxd k j b (by simpa using hk) hget
    · rw [dif_neg h] at hk hget
      simp only [List.length_cons, List.length_nil] at hk
      have : k = 0 := by omega
      subst this
      simp at hget

/-- The decode loop consumes at most `fuel` bytes and leaves the buffer
untouched. -/
theorem sliceUvarintLoop_consumption : ∀ (fuel s acc : Nat) (buf : List Nat) (off : Nat),
    (sliceUvarintLoop fuel s acc ⟨buf, off⟩).2.2.buffer = buf ∧
    off ≤ (sliceUvarintLoop fuel s acc ⟨buf, off⟩).2.2.offset ∧
    (sliceUvarintLoop fuel s acc ⟨buf, off⟩).2.2.offset ≤ off + fuel := by
  intro fuel
  induction fuel with
  | zero => intro s acc buf off; simp [sliceUvarintLoop]
  | succ fuel ih =>
    intro s acc buf off
    match hget : buf[off]? with
    | none => simp [sliceUvarintLoop, hget]
    | some b =>
      by_cases hb : b < 0x80
      · by_cases hofl : s = 63 ∧ 1 < b
        · simp only [sliceUvarintLoop, hget, hb, if_true, hofl]
          simp
        · simp only [sliceUvarintLoop, hget, hb, if_true, hofl, if_false]
          simp
      · simp only [sliceUvarintLoop, hget, hb, if_false]
        have := ih (s + 7) (acc ||| (((b &&& 0x7f) <<< s) % 2 ^ 64)) buf (off + 1)
        exact ⟨this.1, by omega, by omega⟩

/-- Ten-byte inputs whose first nine bytes carry the continuation bit: the
loop fails with `Overflow` exactly when the tenth byte exceeds 1, and always
consumes the nine continuation bytes plus the tenth byte. -/
theorem sliceUvarintLoop_tenth : ∀ (pre : List Nat) (b s x off : Nat)
    (buf rest : List Nat),
    buf.drop off = pre ++ b :: rest →
    (∀ a ∈ pre, 0x80 ≤ a) →
    s + 7 * pre.length = 63 →
    (sliceUvarintLoop (pre.length + 1) s x ⟨buf, off⟩).2.1 =
      (if 1 < b then some .overflow else none) ∧
    (sliceUvarintLoop (pre.length + 1) s x ⟨buf, off⟩).2.2 =
      ⟨buf, off + pre.length + 1⟩ := by
  intro pre
  induction pre with
  | nil =>
    intro b s x off buf rest hdrop hcont hs
    simp only [List.length_nil, Nat.mul_zero, Nat.add_zero] at hs ⊢
    simp only [List.nil_append] at hdrop
    obtain ⟨hget, hdrop', hoff⟩ := getElem?_of_drop_eq_cons hdrop
    by_cases hb : b < 0x80
    · by_cases h1 : 1 < b
      · simp only [sliceUvarintLoop, hget, hb, if_true, hs, h1, and_self, if_true]
      · simp only [sliceUvarintLoop, hget, hb, if_true]
        rw [if_neg (by tauto), if_neg (by omega)]
        simp
    · have h1 : 1 < b := by omega
      simp only [sliceUvarintLoop, hget, hb, if_false, h1, if_true]
      exact ⟨trivial, trivial⟩
  | cons a pre ih =>
    intro b s x off buf rest hdrop hcont hs
    simp only [List.cons_append] at hdrop
    obtain ⟨hget, hdrop', hoff⟩ := getElem?_of_drop_eq_cons hdrop
    have ha : 0x80 ≤ a := hcont a (by simp)
    have hble : ¬(a < 0x80) := by omega
    simp only [List.length_cons] at hs ⊢
    have step : ∀ y, sliceUvarintLoop (pre.length + 1 + 1) s y ⟨buf, off⟩ =
        sliceUvarintLoop (pre.length + 1) (s + 7)
          (y ||| (((a &&& 0x7f) <<< s) % 2 ^ 64)) ⟨buf, off + 1⟩ := by
      intro y
      simp only [sliceUvarintLoop, hget, hble, if_false]
    rw [step]
    have := ih b (s + 7) (x ||| (((a &&& 0x7f) <<< s) % 2 ^ 64)) (off + 1) buf rest
      hdrop' (fun c hc => hcont c (by simp [hc])) (by omega)
    refine ⟨this.1, ?_⟩
    rw [this.2]
    have : off + 1 + pre.length + 1 = off + (pre.length + 1) + 1 := by omega
    rw [this]

/-- The streaming decode loop (over the same remaining bytes) reports the same
error class as the slice loop, leaves the corresponding remaining data, never
touches the scratch buffer, and — except on truncation, where the slice loop
discards the partial value — returns the same value. -/
theorem streamUvarintLoop_agree : ∀ (fuel s x off c : Nat) (buf : List Nat),
    (streamUvarintLoop fuel s x ⟨buf.drop off, c⟩).2.1 =
      (sliceUvarintLoop fuel s x ⟨buf, off⟩).2.1 ∧
    (streamUvarintLoop fuel s x ⟨buf.drop off, c⟩).2.2 =
      ⟨buf.drop (sliceUvarintLoop fuel s x ⟨buf, off⟩).2.2.offset, c⟩ ∧
    ((sliceUvarintLoop fuel s x ⟨buf, off⟩).2.1 ≠ some .truncated →
      (streamUvarintLoop fuel s x ⟨buf.drop off, c⟩).1 =
        (sliceUvarintLoop fuel s x ⟨buf, off⟩).1) := by
  intro fuel
  induction fuel with
  | zero =>
    intro s x off c buf
    simp [streamUvarintLoop, sliceUvarintLoop]
  | succ fuel ih =>
    intro s x off c buf
    match hget : buf[off]? with
    | none =>
      have hlen : buf.length ≤ off := List.getElem?_eq_none_iff.mp hget
      have hdrop : buf.drop off = [] := List.drop_eq_nil_of_le hlen
      simp only [sliceUvarintLoop, streamUvarintLoop, hget, hdrop]
      exact ⟨by trivial, by simp [hdrop], by simp⟩
    | some b =>
      have hoff : off < buf.length := by
        by_contra hc
        rw [List.getElem?_eq_none_iff.mpr (by omega)] at hget
        exact Option.noConfusion hget
      have hdrop : buf.drop off = b :: buf.drop (off + 1) := by
        rw [List.drop_eq_getElem_cons hoff]
        congr 1
        have := List.getElem?_eq_getElem hoff
        rw [hget] at this
        exact (Option.some.injEq _ _ ▸ this.symm)
      by_cases hb : b < 0x80
      · by_cases hofl : s = 63 ∧ 1 < b
        · simp only [sliceUvarintLoop, streamUvarintLoop, hget, hdrop, hb, if_true,
            hofl]
          refine ⟨by trivial, by trivial, fun _ => by trivial⟩
        · simp only [sliceUvarintLoop, streamUvarintLoop, hget, hdrop, hb, if_true,
            hofl, if_false]
          exact ⟨trivial, trivial, fun _ => trivial⟩
      · simp only [sliceUvarintLoop, streamUvarintLoop, hget, hdrop, hb, if_false]
        exact ih (s + 7) (x ||| (((b &&& 0x7f) <<< s) % 2 ^ 64)) (off + 1) c buf

/-! ### Zigzag mapping -/

theorem zigzag_lt (v : Int) : zigzag v < 2 ^ 64 := by
  simp only [zigzag]
  norm_num
  split <;> omega

theorem zigzagDecode_zigzag (v : Int) (h1 : -(2 ^ 63) ≤ v) (h2 : v < 2 ^ 63) :
    zigzagDecode (zigzag v) = v := by
  simp only [zigzag, zigzagDecode]
  rw [Nat.and_one_is_mod, Nat.shiftRight_eq_div_pow]
  norm_num
  split <;> (rename_i hv) <;> split <;> omega

/-! ### Little-endian assembly of fixed-width values -/

theorem assemble16 (v : Nat) (hv : v < 2 ^ 16) :
    (v % 256) ||| (((v >>> 8) % 256) <<< 8) = v := by
  rw [lor_shl_eq_add _ 8 (by omega)]
  rw [Nat.shiftRight_eq_div_pow]
  norm_num
  omega

theorem assemble32 (v : Nat) (hv : v < 2 ^ 32) :
    (v % 256) ||| (((v >>> 8) % 256) <<< 8) ||| (((v >>> 16) % 256) <<< 16) |||
      (((v >>> 24) % 256) <<< 24) = v := by
  simp only [Nat.shiftRight_eq_div_pow]
  rw [lor_shl_eq_add _ 8 (by omega)]
  rw [lor_shl_eq_add _ 16 (by norm_num; omega)]
  rw [lor_shl_eq_add _ 24 (by norm_num; omega)]
  norm_num
  omega

theorem assemble64 (v : Nat) (hv : v < 2 ^ 64) :
    (v % 256) ||| (((v >>> 8) % 256) <<< 8) ||| (((v >>> 16) % 256) <<< 16) |||
      (((v >>> 24) % 256) <<< 24) ||| (((v >>> 32) % 256) <<< 32) |||
      (((v >>> 40) % 256) <<< 40) ||| (((v >>> 48) % 256) <<< 48) |||
      (((v >>> 56) % 256) <<< 56) = v := by
  simp only [Nat.shiftRight_eq_div_pow]
  rw [lor_shl_eq_add _ 8 (by omega)]
  rw [lor_shl_eq_add _ 16 (by norm_num; omega)]
  rw [lor_shl_eq_add _ 24 (by norm_num; omega)]
  rw [lor_shl_eq_add _ 32 (by norm_num; omega)]
  rw [lor_shl_eq_add _ 40 (by norm_num; omega)]
  rw [lor_shl_eq_add _ 48 (by norm_num; omega)]
  rw [lor_shl_eq_add _ 56 (by norm_num; omega)]
  norm_num
  omega

/-! ### Whole-operation wrappers -/

theorem ReadUvarint_encode (x : Nat) (rest : List Nat) (hx : x < 2 ^ 64) :
    SliceSrc.ReadUvarint ⟨uvarintBytes x ++ rest, 0⟩ =
      (x, none, ⟨uvarintBytes x ++ rest, (uvarintBytes x).length⟩) := by
  unfold SliceSrc.ReadUvarint
  have := sliceUvarintLoop_encode x 10 0 0 0 (uvarintBytes x ++ rest) rest
    (by simp) (by simpa using hx) (by norm_num) (by norm_num)
  simpa using this

theorem ReadBytes_encode (bs : List Nat) (h : bs.length < 2 ^ 64) :
    Reader.ReadBytes ⟨.slice ⟨bytesBytes bs, 0⟩⟩ =
      (.ok bs, ⟨.slice ⟨bytesBytes bs, (bytesBytes bs).length⟩⟩) := by
  have huv := ReadUvarint_encode bs.length bs h
  simp only [bytesBytes] at huv ⊢
  simp only [Reader.ReadBytes, Src.ReadUvarint, huv]
  simp only [Src.ReadFull, SliceSrc.ReadFull]
  by_cases hbs : bs.length = 0
  · rw [if_pos hbs]
    have hnil : bs = [] := List.eq_nil_of_length_eq_zero hbs
    subst hnil
    simp
  · rw [if_neg hbs, if_pos (by simp [List.length_append])]
    rw [List.drop_left, List.take_length]
    simp [List.length_append]

/-- Claim C1: for every representable value of every supported kind —
unsigned varint, zigzag signed varint, fixed-width `uint8/16/32/64` and their
signed reinterpretations, `float32/64` (represented by their IEEE-754 bit
patterns, which the Go code moves bit-for-bit), booleans, and length-prefixed
bytes/strings — reading the byte sequence the mirror `WriteX` operation
produced yields exactly the original value with no error. -/
theorem c1_write_read_roundtrip :
    (∀ x : Nat, x < 2 ^ 64 →
      Reader.ReadUvarint ⟨.slice ⟨uvarintBytes x, 0⟩⟩ =
        (x, none, ⟨.slice ⟨uvarintBytes x, (uvarintBytes x).length⟩⟩)) ∧
    (∀ v : Int, -(2 ^ 63) ≤ v → v < 2 ^ 63 →
      Reader.ReadVarint ⟨.slice ⟨varintBytes v, 0⟩⟩ =
        (v, none, ⟨.slice ⟨varintBytes v, (varintBytes v).length⟩⟩)) ∧
    (∀ v : Nat, v < 2 ^ 8 →
      Reader.ReadUint8 ⟨.slice ⟨uint8Bytes v, 0⟩⟩ =
        (.ok v, ⟨.slice ⟨uint8Bytes v, 1⟩⟩)) ∧
    (∀ v : Nat, v < 2 ^ 16 →
      Reader.ReadUint16 ⟨.slice ⟨uint16Bytes v, 0⟩⟩ =
        (.ok v, ⟨.slice ⟨uint16Bytes v, 2⟩⟩)) ∧
    (∀ v : Nat, v < 2 ^ 32 →
      Reader.ReadUint32 ⟨.slice ⟨uint32Bytes v, 0⟩⟩ =
        (.ok v, ⟨.slice ⟨uint32Bytes v, 4⟩⟩)) ∧
    (∀ v : Nat, v < 2 ^ 64 →
      Reader.ReadUint64 ⟨.slice ⟨uint64Bytes v, 0⟩⟩ =
        (.ok v, ⟨.slice ⟨uint64Bytes v, 8⟩⟩)) ∧
    (∀ v : Int, -(2 ^ 7) ≤ v → v < 2 ^ 7 →
      (Reader.ReadInt8 ⟨.slice ⟨uint8Bytes (toUint8 v), 0⟩⟩).1 = .ok v) ∧
    (∀ v : Int, -(2 ^ 15) ≤ v → v < 2 ^ 15 →
      (Reader.ReadInt16 ⟨.slice ⟨uint16Bytes (toUint16 v), 0⟩⟩).1 = .ok v) ∧
    (∀ v : Int, -(2 ^ 31) ≤ v → v < 2 ^ 31 →
      (Reader.ReadInt32 ⟨.slice ⟨uint32Bytes (toUint32 v), 0⟩⟩).1 = .ok v) ∧
    (∀ v : Int, -(2 ^ 63) ≤ v → v < 2 ^ 63 →
      (Reader.ReadInt64 ⟨.slice ⟨uint64Bytes (toUint64 v), 0⟩⟩).1 = .ok v) ∧
    (∀ bits : Nat, bits < 2 ^ 32 →
      Reader.ReadFloat32 ⟨.slice ⟨float32Bytes bits, 0⟩⟩ =
        (.ok bits, ⟨.slice ⟨float32Bytes bits, 4⟩⟩)) ∧
    (∀ bits : Nat, bits < 2 ^ 64 →
      Reader.ReadFloat64 ⟨.slice ⟨float64Bytes bits, 0⟩⟩ =
        (.ok bits, ⟨.slice ⟨float64Bytes bits, 8⟩⟩)) ∧
    (∀ b : Bool,
      Reader.ReadBool ⟨.slice ⟨boolBytes b, 0⟩⟩ =
        (.ok b, ⟨.slice ⟨boolBytes b, 1⟩⟩)) ∧
    (∀ bs : List Nat, bs.length < 2 ^ 64 →
      Reader.ReadBytes ⟨.slice ⟨bytesBytes bs, 0⟩⟩ =
        (.ok bs, ⟨.slice ⟨bytesBytes bs, (bytesBytes bs).length⟩⟩)) ∧
    (∀ bs : List Nat, bs.length < 2 ^ 64 →
      Reader.ReadString ⟨.slice ⟨stringBytes bs, 0⟩⟩ =
        (.ok bs, ⟨.slice ⟨stringBytes bs, (stringBytes bs).length⟩⟩)) := by
  have huv : ∀ x : Nat, x < 2 ^ 64 →
      Reader.ReadUvarint ⟨.slice ⟨uvarintBytes x, 0⟩⟩ =
        (x, none, ⟨.slice ⟨uvarintBytes x, (uvarintBytes x).length⟩⟩) := by
    intro x hx
    have := ReadUvarint_encode x [] hx
    simp only [List.append_nil] at this
    simp [Reader.ReadUvarint, Src.ReadUvarint, this]
  have hu8 : ∀ v : Nat, v < 2 ^ 8 →
      Reader.ReadUint8 ⟨.slice ⟨uint8Bytes v, 0⟩⟩ =
        (.ok v, ⟨.slice ⟨uint8Bytes v, 1⟩⟩) := by
    intro v hv
    have : Reader.ReadUint8 ⟨.slice ⟨uint8Bytes v, 0⟩⟩ =
        (.ok (v % 256), ⟨.slice ⟨uint8Bytes v, 1⟩⟩) := rfl
    rw [this, Nat.mod_eq_of_lt (by omega)]
  have hu16 : ∀ v : Nat, v < 2 ^ 16 →
      Reader.ReadUint16 ⟨.slice ⟨uint16Bytes v, 0⟩⟩ =
        (.ok v, ⟨.slice ⟨uint16Bytes v, 2⟩⟩) := by
    intro v hv
    have : Reader.ReadUint16 ⟨.slice ⟨uint16Bytes v, 0⟩⟩ =
        (.ok ((v % 256) ||| (((v >>> 8) % 256) <<< 8)), ⟨.slice ⟨uint16Bytes v, 2⟩⟩) := rfl
    rw [this, assemble16 v hv]
  have hu32 : ∀ v : Nat, v < 2 ^ 32 →
      Reader.ReadUint32 ⟨.slice ⟨uint32Bytes v, 0⟩⟩ =
        (.ok v, ⟨.slice ⟨uint32Bytes v, 4⟩⟩) := by
    intro v hv
    have : Reader.ReadUint32 ⟨.slice ⟨uint32Bytes v, 0⟩⟩ =
        (.ok ((v % 256) ||| (((v >>> 8) % 256) <<< 8) ||| (((v >>> 16) % 256) <<< 16) |||
          (((v >>> 24) % 256) <<< 24)), ⟨.slice ⟨uint32Bytes v, 4⟩⟩) := rfl
    rw [this, assemble32 v hv]
  have hu64 : ∀ v : Nat, v < 2 ^ 64 →
      Reader.ReadUint64 ⟨.slice ⟨uint64Bytes v, 0⟩⟩ =
        (.ok v, ⟨.slice ⟨uint64Bytes v, 8⟩⟩) := by
    intro v hv
    have : Reader.ReadUint64 ⟨.slice ⟨uint64Bytes v, 0⟩⟩ =
        (.ok ((v % 256) ||| (((v >>> 8) % 256) <<< 8) ||| (((v >>> 16) % 256) <<< 16) |||
          (((v >>> 24) % 256) <<< 24) ||| (((v >>> 32) % 256) <<< 32) |||
          (((v >>> 40) % 256) <<< 40) ||| (((v >>> 48) % 256) <<< 48) |||
          (((v >>> 56) % 256) <<< 56)), ⟨.slice ⟨uint64Bytes v, 8⟩⟩) := rfl
    rw [this, assemble64 v hv]
  refine ⟨huv, ?_, hu8, hu16, hu32, hu64, ?_, ?_, ?_, ?_, ?_, ?_, ?_, ?_, ?_⟩
  · intro v h1 h2
    have hzlt := zigzag_lt v
    have := huv (zigzag v) hzlt
    simp only [Reader.ReadVarint, Src.ReadVarint, SliceSrc.ReadVarint, varintBytes]
    simp only [Reader.ReadUvarint, Src.ReadUvarint] at this
    have hres : SliceSrc.ReadUvarint ⟨uvarintBytes (zigzag v), 0⟩ =
        (zigzag v, none,
          ⟨uvarintBytes (zigzag v), (uvarintBytes (zigzag v)).length⟩) := by
      have h2' := ReadUvarint_encode (zigzag v) [] hzlt
      simpa using h2'
    rw [hres]
    simp [zigzagDecode_zigzag v h1 h2]
  · intro v h1 h2
    rw [Reader.ReadInt8, hu8 (toUint8 v) (by simp only [toUint8]; omega)]
    simp only [Except.map]
    simp only [toInt8, toUint8]
    split <;> (rename_i hsp) <;> [skip; skip] <;> congr 1 <;> omega
  · intro v h1 h2
    rw [Reader.ReadInt16, hu16 (toUint16 v) (by simp only [toUint16]; omega)]
    simp only [Except.map]
    simp only [toInt16, toUint16]
    split <;> (rename_i hsp) <;> [skip; skip] <;> congr 1 <;> omega
  · intro v h1 h2
    rw [Reader.ReadInt32, hu32 (toUint32 v) (by simp only [toUint32]; omega)]
    simp only [Except.map]
    simp only [toInt32, toUint32]
    split <;> (rename_i hsp) <;> [skip; skip] <;> congr 1 <;> omega
  · intro v h1 h2
    rw [Reader.ReadInt64, hu64 (toUint64 v) (by simp only [toUint64]; omega)]
    simp only [Except.map]
    simp only [toInt64, toUint64]
    split <;> (rename_i hsp) <;> [skip; skip] <;> congr 1 <;> omega
  · intro bits h
    exact hu32 bits h
  · intro bits h
    exact hu64 bits h
  · intro b
    cases b <;> rfl
  · intro bs h
    exact ReadBytes_encode bs h
  · intro bs h
    exact ReadBytes_encode bs h

/-- Witness for C1: the round-trip theorem applied at concrete inputs. -/
theorem c1_write_read_roundtrip_witness :
    Reader.ReadUvarint ⟨.slice ⟨uvarintBytes 300, 0⟩⟩ =
      (300, none, ⟨.slice ⟨uvarintBytes 300, (uvarintBytes 300).length⟩⟩) ∧
    Reader.ReadVarint ⟨.slice ⟨varintBytes (-16), 0⟩⟩ =
      (-16, none, ⟨.slice ⟨varintBytes (-16), (varintBytes (-16)).length⟩⟩) ∧
    Reader.ReadBytes ⟨.slice ⟨bytesBytes [104, 105], 0⟩⟩ =
      (.ok [104, 105],
        ⟨.slice ⟨bytesBytes [104, 105], (bytesBytes [104, 105]).length⟩⟩) :=
  ⟨c1_write_read_roundtrip.1 300 (by norm_num),
   c1_write_read_roundtrip.2.1 (-16) (by norm_num) (by norm_num),
   c1_write_read_roundtrip.2.2.2.2.2.2.2.2.2.2.2.2.2.1 [104, 105] (by norm_num)⟩

/-- Claim C9: the encoding loops of `WriteUvarint` and `WriteVarint` emit at
most 10 bytes for any `uint64` (any `int64` after zigzag) input, so the
scratch index `i` — which reaches `length - 1` at the final write — never
exceeds 9 and stays inside the fixed `[10]byte` scratch array. -/
theorem c9_scratch_bounded :
    (∀ x : Nat, x < 2 ^ 64 →
      (uvarintBytes x).length ≤ 10 ∧ (uvarintBytes x).length - 1 ≤ 9) ∧
    (∀ v : Int, -(2 ^ 63) ≤ v → v < 2 ^ 63 →
      (varintBytes v).length ≤ 10 ∧ (varintBytes v).length - 1 ≤ 9) := by
  constructor
  · intro x hx
    have := uvarintBytes_length_le 10 x (by norm_num) (by norm_num at hx ⊢; omega)
    omega
  · intro v _ _
    have hz := zigzag_lt v
    have := uvarintBytes_length_le 10 (zigzag v) (by norm_num)
      (by norm_num at hz ⊢; omega)
    unfold varintBytes
    omega

/-- Witness for C9. -/
theorem c9_scratch_bounded_witness :
    ((uvarintBytes (2 ^ 64 - 1)).length ≤ 10 ∧ (uvarintBytes (2 ^ 64 - 1)).length - 1 ≤ 9) ∧
    ((varintBytes (-(2 ^ 63))).length ≤ 10 ∧ (varintBytes (-(2 ^ 63))).length - 1 ≤ 9) :=
  ⟨c9_scratch_bounded.1 (2 ^ 64 - 1) (by norm_num),
   c9_scratch_bounded.2 (-(2 ^ 63)) (by norm_num) (by norm_num)⟩

/-! ### Truncation lemmas -/

theorem ReadUvarint_take_trunc (x k : Nat) (hx : x < 2 ^ 64)
    (hk : k < (uvarintBytes x).length) :
    (SliceSrc.ReadUvarint ⟨(uvarintBytes x).take k, 0⟩).2.1 = some .truncated := by
  unfold SliceSrc.ReadUvarint
  apply sliceUvarintLoop_trunc
  · intro j b _ hget
    exact uvarintBytes_take_cont x k j b hk hget
  · have hle := uvarintBytes_length_le 10 x (by norm_num) (by norm_num at hx ⊢; omega)
    have hmin : ((uvarintBytes x).take k).length = min k (uvarintBytes x).length :=
      List.length_take k _
    omega

theorem ReadUint16_short (buf : List Nat) (h : buf.length < 2) :
    Reader.ReadUint16 ⟨.slice ⟨buf, 0⟩⟩ = (.error .truncated, ⟨.slice ⟨buf, 0⟩⟩) := by
  simp only [Reader.ReadUint16, Src.Slice, SliceSrc.Slice]
  rw [if_pos (by omega)]

theorem ReadUint32_short (buf : List Nat) (h : buf.length < 4) :
    Reader.ReadUint32 ⟨.slice ⟨buf, 0⟩⟩ = (.error .truncated, ⟨.slice ⟨buf, 0⟩⟩) := by
  simp only [Reader.ReadUint32, Src.Slice, SliceSrc.Slice]
  rw [if_pos (by omega)]

theorem ReadUint64_short (buf : List Nat) (h : buf.length < 8) :
    Reader.ReadUint64 ⟨.slice ⟨buf, 0⟩⟩ = (.error .truncated, ⟨.slice ⟨buf, 0⟩⟩) := by
  simp only [Reader.ReadUint64, Src.Slice, SliceSrc.Slice]
  rw [if_pos (by omega)]

theorem ReadBytes_take_trunc (bs : List Nat) (k : Nat) (hlen : bs.length < 2 ^ 64)
    (hk : k < (bytesBytes bs).length) :
    (Reader.ReadBytes ⟨.slice ⟨(bytesBytes bs).take k, 0⟩⟩).1 = .error .truncated := by
  by_cases hcase : k < (uvarintBytes bs.length).length
  · have htake : (bytesBytes bs).take k = (uvarintBytes bs.length).take k := by
      unfold bytesBytes
      exact List.take_append_of_le_length (by omega)
    rw [htake]
    have herr := ReadUvarint_take_trunc bs.length k hlen hcase
    rcases hres : SliceSrc.ReadUvarint ⟨(uvarintBytes bs.length).take k, 0⟩ with
      ⟨sz, err, st⟩
    rw [hres] at herr
    simp only at herr
    subst herr
    simp [Reader.ReadBytes, Src.ReadUvarint, hres]
  · push_neg at hcase
    have hlenb : (bytesBytes bs).length =
        (uvarintBytes bs.length).length + bs.length := by
      simp [bytesBytes]
    have hksplit : (bytesBytes bs).take k =
        uvarintBytes bs.length ++ bs.take (k - (uvarintBytes bs.length).length) := by
      unfold bytesBytes
      rw [List.take_append_eq_append_take, List.take_of_length_le hcase]
    rw [hksplit]
    have hru := ReadUvarint_encode bs.length
      (bs.take (k - (uvarintBytes bs.length).length)) hlen
    simp only [Reader.ReadBytes, Src.ReadUvarint, hru]
    simp only [Src.ReadFull, SliceSrc.ReadFull]
    have hbs0 : bs.length ≠ 0 := by omega
    rw [if_neg hbs0, if_neg (by
      simp only [List.length_append, List.length_take]
      omega)]

/-- Claim C3: for every supported value kind and every strict prefix of a
valid encoding, running the mirror `ReadX` operation over a source holding
only that prefix fails with the `Truncated` (EOF-class) error. -/
theorem c3_strict_cut_truncated :
    (∀ x k : Nat, x < 2 ^ 64 → k < (uvarintBytes x).length →
      (Reader.ReadUvarint ⟨.slice ⟨(uvarintBytes x).take k, 0⟩⟩).2.1 =
        some .truncated) ∧
    (∀ (v : Int) (k : Nat), -(2 ^ 63) ≤ v → v < 2 ^ 63 → k < (varintBytes v).length →
      (Reader.ReadVarint ⟨.slice ⟨(varintBytes v).take k, 0⟩⟩).2.1 =
        some .truncated) ∧
    (∀ v k : Nat, k < 1 →
      (Reader.ReadUint8 ⟨.slice ⟨(uint8Bytes v).take k, 0⟩⟩).1 =
        .error .truncated) ∧
    (∀ v k : Nat, k < 2 →
      (Reader.ReadUint16 ⟨.slice ⟨(uint16Bytes v).take k, 0⟩⟩).1 =
        .error .truncated) ∧
    (∀ v k : Nat, k < 4 →
      (Reader.ReadUint32 ⟨.slice ⟨(uint32Bytes v).take k, 0⟩⟩).1 =
        .error .truncated) ∧
    (∀ v k : Nat, k < 8 →
      (Reader.ReadUint64 ⟨.slice ⟨(uint64Bytes v).take k, 0⟩⟩).1 =
        .error .truncated) ∧
    (∀ bits k : Nat, k < 4 →
      (Reader.ReadFloat32 ⟨.slice ⟨(float32Bytes bits).take k, 0⟩⟩).1 =
        .error .truncated) ∧
    (∀ bits k : Nat, k < 8 →
      (Reader.ReadFloat64 ⟨.slice ⟨(float64Bytes bits).take k, 0⟩⟩).1 =
        .error .truncated) ∧
    (∀ (b : Bool) (k : Nat), k < 1 →
      (Reader.ReadBool ⟨.slice ⟨(boolBytes b).take k, 0⟩⟩).1 =
        .error .truncated) ∧
    (∀ (bs : List Nat) (k : Nat), bs.length < 2 ^ 64 → k < (bytesBytes bs).length →
      (Reader.ReadBytes ⟨.slice ⟨(bytesBytes bs).take k, 0⟩⟩).1 =
        .error .truncated) ∧
    (∀ (bs : List Nat) (k : Nat), bs.length < 2 ^ 64 → k < (stringBytes bs).length →
      (Reader.ReadString ⟨.slice ⟨(stringBytes bs).take k, 0⟩⟩).1 =
        .error .truncated) := by
  have huv : ∀ x k : Nat, x < 2 ^ 64 → k < (uvarintBytes x).length →
      (Reader.ReadUvarint ⟨.slice ⟨(uvarintBytes x).take k, 0⟩⟩).2.1 =
        some .truncated := by
    intro x k hx hk
    have := ReadUvarint_take_trunc x k hx hk
    simpa [Reader.ReadUvarint, Src.ReadUvarint] using this
  have h16 : ∀ v k : Nat, k < 2 →
      (Reader.ReadUint16 ⟨.slice ⟨(uint16Bytes v).take k, 0⟩⟩).1 =
        .error .truncated := by
    intro v k hklt
    rw [ReadUint16_short]
    have : ((uint16Bytes v).take k).length = min k (uint16Bytes v).length :=
      List.length_take k _
    simp only [uint16Bytes] at this ⊢
    omega
  have h32 : ∀ v k : Nat, k < 4 →
      (Reader.ReadUint32 ⟨.slice ⟨(uint32Bytes v).take k, 0⟩⟩).1 =
        .error .truncated := by
    intro v k hklt
    rw [ReadUint32_short]
    have : ((uint32Bytes v).take k).length = min k (uint32Bytes v).length :=
      List.length_take k _
    simp only [uint32Bytes] at this ⊢
    omega
  have h64 : ∀ v k : Nat, k < 8 →
      (Reader.ReadUint64 ⟨.slice ⟨(uint64Bytes v).take k, 0⟩⟩).1 =
        .error .truncated := by
    intro v k hklt
    rw [ReadUint64_short]
    have : ((uint64Bytes v).take k).length = min k (uint64Bytes v).length :=
      List.length_take k _
    simp only [uint64Bytes] at this ⊢
    omega
  refine ⟨huv, ?_, ?_, h16, h32, h64, h32, h64, ?_, ?_, ?_⟩
  · intro v k h1 h2 hk
    have := huv (zigzag v) k (zigzag_lt v) hk
    simp only [Reader.ReadUvarint, Src.ReadUvarint] at this
    simp only [Reader.ReadVarint, Src.ReadVarint, SliceSrc.ReadVarint, varintBytes] at *
    exact this
  · intro v k hk
    have : k = 0 := by omega
    subst this
    rfl
  · intro b k hk
    have : k = 0 := by omega
    subst this
    rfl
  · intro bs k hlen hk
    exact ReadBytes_take_trunc bs k hlen hk
  · intro bs k hlen hk
    exact ReadBytes_take_trunc bs k hlen hk

/-- Witness for C3: truncation applied at concrete values and cut points. -/
theorem c3_strict_cut_truncated_witness :
    (Reader.ReadUvarint ⟨.slice ⟨(uvarintBytes 300).take 1, 0⟩⟩).2.1 =
      some .truncated ∧
    (Reader.ReadUint64 ⟨.slice ⟨(uint64Bytes 77).take 7, 0⟩⟩).1 =
      .error .truncated ∧
    (Reader.ReadBytes ⟨.slice ⟨(bytesBytes [104, 105]).take 2, 0⟩⟩).1 =
      .error .truncated :=
  ⟨c3_strict_cut_truncated.1 300 1 (by norm_num)
    (by rw [uvarintBytes, dif_pos (by norm_num), uvarintBytes, dif_neg (by decide)]; simp),
   c3_strict_cut_truncated.2.2.2.2.2.1 77 7 (by norm_num),
   c3_strict_cut_truncated.2.2.2.2.2.2.2.2.2.1 [104, 105] 2 (by norm_num)
    (by rw [bytesBytes, uvarintBytes, dif_neg (by norm_num)]; simp)⟩

/-- Claim C2: on a 10-byte input whose first nine bytes all carry the
continuation bit, `ReadUvarint` (on both the slice-backed and the streaming
source) fails with `Overflow` exactly when the 10th byte's value exceeds 1
and succeeds when it is at most 1; and decoding a single varint never
consumes more than 10 bytes from any source. -/
theorem c2_varint_overflow_strictness :
    (∀ (pre : List Nat) (b c : Nat), pre.length = 9 → (∀ a ∈ pre, 0x80 ≤ a) →
      (1 < b →
        (Reader.ReadUvarint ⟨.slice ⟨pre ++ [b], 0⟩⟩).2.1 = some .overflow ∧
        (Reader.ReadUvarint ⟨.stream ⟨pre ++ [b], c⟩⟩).2.1 = some .overflow) ∧
      (b ≤ 1 →
        (Reader.ReadUvarint ⟨.slice ⟨pre ++ [b], 0⟩⟩).2.1 = none ∧
        (Reader.ReadUvarint ⟨.stream ⟨pre ++ [b], c⟩⟩).2.1 = none)) ∧
    (∀ (buf : List Nat) (off : Nat),
      (SliceSrc.ReadUvarint ⟨buf, off⟩).2.2.offset ≤ off + 10) ∧
    (∀ (d : List Nat) (c : Nat),
      d.length ≤ (StreamSrc.ReadUvarint ⟨d, c⟩).2.2.data.length + 10) := by
  have hslice : ∀ (pre : List Nat) (b : Nat), pre.length = 9 → (∀ a ∈ pre, 0x80 ≤ a) →
      (SliceSrc.ReadUvarint ⟨pre ++ [b], 0⟩).2.1 =
        (if 1 < b then some .overflow else none) := by
    intro pre b hlen hcont
    unfold SliceSrc.ReadUvarint
    have := sliceUvarintLoop_tenth pre b 0 0 0 (pre ++ [b]) [] (by simp) hcont
      (by omega)
    rw [hlen] at this
    exact this.1
  have hstreamerr : ∀ (pre : List Nat) (b c : Nat), pre.length = 9 →
      (∀ a ∈ pre, 0x80 ≤ a) →
      (StreamSrc.ReadUvarint ⟨pre ++ [b], c⟩).2.1 =
        (if 1 < b then some .overflow else none) := by
    intro pre b c hlen hcont
    unfold StreamSrc.ReadUvarint
    have hagree := streamUvarintLoop_agree 10 0 0 0 c (pre ++ [b])
    simp only [List.drop_zero] at hagree
    rw [hagree.1]
    exact hslice pre b hlen hcont
  refine ⟨?_, ?_, ?_⟩
  · intro pre b c hlen hcont
    have h1 := hslice pre b hlen hcont
    have h2 := hstreamerr pre b c hlen hcont
    constructor
    · intro hb
      rw [if_pos hb] at h1 h2
      exact ⟨by simpa [Reader.ReadUvarint, Src.ReadUvarint] using h1,
        by simpa [Reader.ReadUvarint, Src.ReadUvarint] using h2⟩
    · intro hb
      rw [if_neg (by omega)] at h1 h2
      exact ⟨by simpa [Reader.ReadUvarint, Src.ReadUvarint] using h1,
        by simpa [Reader.ReadUvarint, Src.ReadUvarint] using h2⟩
  · intro buf off
    have := sliceUvarintLoop_consumption 10 0 0 buf off
    unfold SliceSrc.ReadUvarint
    omega
  · intro d c
    have hagree := streamUvarintLoop_agree 10 0 0 0 c d
    simp only [List.drop_zero] at hagree
    have hcons := sliceUvarintLoop_consumption 10 0 0 d 0
    unfold StreamSrc.ReadUvarint
    rw [hagree.2.1]
    simp only [List.length_drop]
    omega

/-- Witness for C2, at a concrete nine-continuation-byte input with 10th byte
2 (overflow) and 1 (success). -/
theorem c2_varint_overflow_strictness_witness :
    ((Reader.ReadUvarint
        ⟨.slice ⟨[0x91, 0xa2, 0xc4, 0x88, 0x91, 0xa2, 0xc4, 0x88, 0x91] ++ [2], 0⟩⟩).2.1 =
      some .overflow ∧
     (Reader.ReadUvarint
        ⟨.stream ⟨[0x91, 0xa2, 0xc4, 0x88, 0x91, 0xa2, 0xc4, 0x88, 0x91] ++ [2], 0⟩⟩).2.1 =
      some .overflow) ∧
    ((Reader.ReadUvarint
        ⟨.slice ⟨[0x91, 0xa2, 0xc4, 0x88, 0x91, 0xa2, 0xc4, 0x88, 0x91] ++ [1], 0⟩⟩).2.1 =
      none ∧
     (Reader.ReadUvarint
        ⟨.stream ⟨[0x91, 0xa2, 0xc4, 0x88, 0x91, 0xa2, 0xc4, 0x88, 0x91] ++ [1], 0⟩⟩).2.1 =
      none) :=
  ⟨(c2_varint_overflow_strictness.1 [0x91, 0xa2, 0xc4, 0x88, 0x91, 0xa2, 0xc4, 0x88, 0x91]
      2 0 (by decide) (by decide)).1 (by norm_num),
   (c2_varint_overflow_strictness.1 [0x91, 0xa2, 0xc4, 0x88, 0x91, 0xa2, 0xc4, 0x88, 0x91]
      1 0 (by decide) (by decide)).2 (by norm_num)⟩

/-- Claim C5: `ReadBool` returns `true` exactly for the byte 1 and `false`
for every other byte value (it never rejects an out-of-range byte), while
`WriteBool` canonically emits 1 for `true` and 0 for `false`; in particular
the byte `0x11` decodes to `false`. -/
theorem c5_bool_asymmetry :
    (∀ (byte : Nat) (rest : List Nat),
      Reader.ReadBool ⟨.slice ⟨byte :: rest, 0⟩⟩ =
        (.ok (byte == 1), ⟨.slice ⟨byte :: rest, 1⟩⟩)) ∧
    (∀ (byte : Nat) (rest : List Nat), byte ≠ 1 →
      (Reader.ReadBool ⟨.slice ⟨byte :: rest, 0⟩⟩).1 = .ok false) ∧
    boolBytes true = [1] ∧
    boolBytes false = [0] ∧
    (Reader.ReadBool ⟨.slice ⟨[0x11], 0⟩⟩).1 = .ok false := by
  have hread : ∀ (byte : Nat) (rest : List Nat),
      Reader.ReadBool ⟨.slice ⟨byte :: rest, 0⟩⟩ =
        (.ok (byte == 1), ⟨.slice ⟨byte :: rest, 1⟩⟩) := by
    intro byte rest
    simp [Reader.ReadBool, Src.ReadByte, SliceSrc.ReadByte]
  refine ⟨hread, ?_, rfl, rfl, by rw [hread]; rfl⟩
  intro byte rest hne
  rw [hread]
  simp [hne]

/-- Witness for C5: the non-1, non-0 byte 0x11 decodes to `false`. -/
theorem c5_bool_asymmetry_witness :
    (Reader.ReadBool ⟨.slice ⟨17 :: [], 0⟩⟩).1 = .ok false :=
  c5_bool_asymmetry.2.1 17 [] (by norm_num)

/-- Claim C10: a zero varint length prefix makes `ReadBytes` succeed with an
empty byte slice and `ReadString` with the empty string, with no error, even
when the source holds nothing beyond that prefix (`rest = []`), on both
source variants. -/
theorem c10_zero_length_bytes :
    (∀ rest : List Nat,
      Reader.ReadBytes ⟨.slice ⟨0 :: rest, 0⟩⟩ = (.ok [], ⟨.slice ⟨0 :: rest, 1⟩⟩)) ∧
    (∀ (rest : List Nat) (c : Nat),
      Reader.ReadBytes ⟨.stream ⟨0 :: rest, c⟩⟩ = (.ok [], ⟨.stream ⟨rest, c⟩⟩)) ∧
    (∀ rest : List Nat,
      Reader.ReadString ⟨.slice ⟨0 :: rest, 0⟩⟩ = (.ok [], ⟨.slice ⟨0 :: rest, 1⟩⟩)) ∧
    Reader.ReadBytes ⟨.slice ⟨[0], 0⟩⟩ = (.ok [], ⟨.slice ⟨[0], 1⟩⟩) := by
  have hslice : ∀ rest : List Nat,
      Reader.ReadBytes ⟨.slice ⟨0 :: rest, 0⟩⟩ = (.ok [], ⟨.slice ⟨0 :: rest, 1⟩⟩) := by
    intro rest
    simp [Reader.ReadBytes, Src.ReadUvarint, SliceSrc.ReadUvarint, sliceUvarintLoop,
      Src.ReadFull, SliceSrc.ReadFull]
  refine ⟨hslice, ?_, hslice, hslice []⟩
  intro rest c
  simp [Reader.ReadBytes, Src.ReadUvarint, StreamSrc.ReadUvarint, streamUvarintLoop,
    Src.ReadFull, StreamSrc.ReadFull]

/-- Claim C8: `newSource` over Go `nil` yields a materialized source over zero
bytes whose first `Read`, `ReadByte`, `ReadUvarint` or `Slice (0 < n)` fails
with the `Truncated`/EOF error (no null dereference is possible in the
model); wrapping an already-conforming source — or passing a `*Reader` to
`NewReader` — returns it unchanged. -/
theorem c8_source_selection :
    newSource .null = .slice ⟨[], 0⟩ ∧
    (∀ n : Nat, (SliceSrc.Read ⟨[], 0⟩ n).1 = .error .truncated) ∧
    (SliceSrc.ReadByte ⟨[], 0⟩).1 = .error .truncated ∧
    (SliceSrc.ReadUvarint ⟨[], 0⟩).2.1 = some .truncated ∧
    (∀ n : Nat, 0 < n → (SliceSrc.Slice ⟨[], 0⟩ n).1 = .error .truncated) ∧
    (∀ s : SliceSrc, newSource (.sliceSrc s) = .slice s) ∧
    (∀ s : StreamSrc, newSource (.streamSrc s) = .stream s) ∧
    (∀ r : Reader, NewReader (.reader r) = r) := by
  refine ⟨rfl, fun _ => rfl, rfl, rfl, ?_, fun _ => rfl, fun _ => rfl, fun _ => rfl⟩
  intro n hn
  unfold SliceSrc.Slice
  rw [if_pos (by simpa using hn)]

/-- Witness for C8: the `Slice` conjunct applied at `n = 3`. -/
theorem c8_source_selection_witness :
    (SliceSrc.Slice ⟨[], 0⟩ 3).1 = .error .truncated :=
  c8_source_selection.2.2.2.2.1 3 (by norm_num)

/-! ### Writer offset accounting -/

theorem limitSink_lawful : limitSink.Lawful := by
  intro s p
  by_cases h : p.length ≤ s
  · refine ⟨?_, fun _ => ?_⟩ <;> simp [limitSink, h]
  · refine ⟨?_, fun hfalse => ?_⟩
    · simp [limitSink, h]
    · exfalso
      simp [limitSink, h] at hfalse

theorem listSink_lawful : listSink.Lawful := by
  intro s p
  exact ⟨Nat.le_refl _, fun _ => rfl⟩

/-- Claim C6: `Offset()` always grows by exactly the byte count the sink
reported for each `Writer.write` call; for a sink honoring the `io.Writer`
contract, after a sequence of write operations that all succeeded the offset
equals the total number of bytes emitted, and a short write surfaces an error
while the offset reflects only the accepted bytes. -/
theorem c6_offset_accounting (σ : Type) (snk : Sink σ) (w : Writer σ) :
    (∀ p : List Nat,
      (w.write snk p).2.Offset = w.Offset + (snk.writeTo w.out p).1) ∧
    (snk.Lawful →
      (∀ ps : List (List Nat), (Writer.writeAll snk w ps).1 = false →
        (Writer.writeAll snk w ps).2.Offset =
          w.Offset + (ps.map List.length).sum) ∧
      (∀ p : List Nat, (snk.writeTo w.out p).1 < p.length →
        (w.write snk p).1 = true ∧
        (w.write snk p).2.Offset = w.Offset + (snk.writeTo w.out p).1)) := by
  refine ⟨fun p => rfl, fun hl => ⟨?_, ?_⟩⟩
  · have main : ∀ (ps : List (List Nat)) (w' : Writer σ),
        (Writer.writeAll snk w' ps).1 = false →
        (Writer.writeAll snk w' ps).2.Offset =
          w'.Offset + (ps.map List.length).sum := by
      intro ps
      induction ps with
      | nil => intro w' _; simp [Writer.writeAll, Writer.Offset]
      | cons p ps ih =>
        intro w' hok
        cases herr : (w'.write snk p).1 with
        | true =>
          exfalso
          simp only [Writer.writeAll, herr, if_true] at hok
          exact Bool.noConfusion hok
        | false =>
          simp only [Writer.writeAll, herr, Bool.false_eq_true, if_false] at hok ⊢
          rw [ih _ hok]
          have hcount : (snk.writeTo w'.out p).1 = p.length := by
            apply (hl w'.out p).2
            simpa [Writer.write] using herr
          simp only [Writer.write, Writer.Offset, hcount, List.map_cons, List.sum_cons]
          omega
    exact fun ps => main ps w
  · intro p hshort
    have hcontract := hl w.out p
    have herr : (snk.writeTo w.out p).2.1 = true := by
      by_contra hc
      have : (snk.writeTo w.out p).1 = p.length := hcontract.2 (by
        cases h : (snk.writeTo w.out p).2.1
        · rfl
        · exact absurd h hc)
      omega
    exact ⟨by simpa [Writer.write] using herr, rfl⟩

/-- Witness for C6: a capacity-5 `limitWriter`-style sink accepts `[1,2]` then
`[3]` (offset 3 = total bytes), and a capacity-1 sink short-writes `[7,8]`
(error, offset unchanged since the sink reported 0 bytes). -/
theorem c6_offset_accounting_witness :
    (Writer.writeAll limitSink ⟨5, 0⟩ [[1, 2], [3]]).2.Offset =
      (Writer.Offset ⟨5, 0⟩) + ([[1, 2], [3]].map List.length).sum ∧
    ((Writer.write limitSink ⟨1, 0⟩ [7, 8]).1 = true ∧
      (Writer.write limitSink ⟨1, 0⟩ [7, 8]).2.Offset =
        (Writer.Offset ⟨1, 0⟩) + (limitSink.writeTo 1 [7, 8]).1) :=
  ⟨((c6_offset_accounting Nat limitSink ⟨5, 0⟩).2 limitSink_lawful).1
      [[1, 2], [3]] (by decide),
   ((c6_offset_accounting Nat limitSink ⟨1, 0⟩).2 limitSink_lawful).2
      [7, 8] (by decide)⟩

/-! ### Materialized vs streaming equivalence -/

theorem SliceSrc_ReadUvarint_buffer (bs : List Nat) (off : Nat) :
    (SliceSrc.ReadUvarint ⟨bs, off⟩).2.2.buffer = bs := by
  unfold SliceSrc.ReadUvarint
  exact (sliceUvarintLoop_consumption 10 0 0 bs off).1

theorem StreamSrc_ReadUvarint_of_slice (bs : List Nat) (c : Nat) :
    (StreamSrc.ReadUvarint ⟨bs, c⟩).2.1 = (SliceSrc.ReadUvarint ⟨bs, 0⟩).2.1 ∧
    (StreamSrc.ReadUvarint ⟨bs, c⟩).2.2 =
      ⟨bs.drop (SliceSrc.ReadUvarint ⟨bs, 0⟩).2.2.offset, c⟩ ∧
    ((SliceSrc.ReadUvarint ⟨bs, 0⟩).2.1 ≠ some .truncated →
      (StreamSrc.ReadUvarint ⟨bs, c⟩).1 = (SliceSrc.ReadUvarint ⟨bs, 0⟩).1) := by
  have := streamUvarintLoop_agree 10 0 0 0 c bs
  simp only [List.drop_zero] at this
  exact this

/-- Claim C4: over the same well-formed byte sequence, every `Reader`
operation decodes to the same value through the materialized (slice-backed)
source and through the streaming (byte-at-a-time) source. -/
theorem c4_slice_stream_equivalence :
    (∀ (bs : List Nat) (c : Nat), (SliceSrc.ReadUvarint ⟨bs, 0⟩).2.1 = none →
      (Reader.ReadUvarint ⟨.stream ⟨bs, c⟩⟩).1 =
        (Reader.ReadUvarint ⟨.slice ⟨bs, 0⟩⟩).1 ∧
      (Reader.ReadUvarint ⟨.stream ⟨bs, c⟩⟩).2.1 = none) ∧
    (∀ (bs : List Nat) (c : Nat), (SliceSrc.ReadUvarint ⟨bs, 0⟩).2.1 = none →
      (Reader.ReadVarint ⟨.stream ⟨bs, c⟩⟩).1 =
        (Reader.ReadVarint ⟨.slice ⟨bs, 0⟩⟩).1 ∧
      (Reader.ReadVarint ⟨.stream ⟨bs, c⟩⟩).2.1 = none) ∧
    (∀ (b : Nat) (rest : List Nat) (c : Nat),
      (Reader.ReadUint8 ⟨.stream ⟨b :: rest, c⟩⟩).1 =
        (Reader.ReadUint8 ⟨.slice ⟨b :: rest, 0⟩⟩).1) ∧
    (∀ (bs : List Nat) (c : Nat), 2 ≤ bs.length →
      (Reader.ReadUint16 ⟨.stream ⟨bs, c⟩⟩).1 =
        (Reader.ReadUint16 ⟨.slice ⟨bs, 0⟩⟩).1) ∧
    (∀ (bs : List Nat) (c : Nat), 4 ≤ bs.length →
      (Reader.ReadUint32 ⟨.stream ⟨bs, c⟩⟩).1 =
        (Reader.ReadUint32 ⟨.slice ⟨bs, 0⟩⟩).1) ∧
    (∀ (bs : List Nat) (c : Nat), 8 ≤ bs.length →
      (Reader.ReadUint64 ⟨.stream ⟨bs, c⟩⟩).1 =
        (Reader.ReadUint64 ⟨.slice ⟨bs, 0⟩⟩).1) ∧
    (∀ (b : Nat) (rest : List Nat) (c : Nat),
      (Reader.ReadBool ⟨.stream ⟨b :: rest, c⟩⟩).1 =
        (Reader.ReadBool ⟨.slice ⟨b :: rest, 0⟩⟩).1) ∧
    (∀ (bs : List Nat) (c : Nat) (v : List Nat),
      (Reader.ReadBytes ⟨.slice ⟨bs, 0⟩⟩).1 = .ok v →
      (Reader.ReadBytes ⟨.stream ⟨bs, c⟩⟩).1 = .ok v) ∧
    (∀ (bs : List Nat) (c : Nat) (v : List Nat),
      (Reader.ReadString ⟨.slice ⟨bs, 0⟩⟩).1 = .ok v →
      (Reader.ReadString ⟨.stream ⟨bs, c⟩⟩).1 = .ok v) := by
  have huv : ∀ (bs : List Nat) (c : Nat), (SliceSrc.ReadUvarint ⟨bs, 0⟩).2.1 = none →
      (Reader.ReadUvarint ⟨.stream ⟨bs, c⟩⟩).1 =
        (Reader.ReadUvarint ⟨.slice ⟨bs, 0⟩⟩).1 ∧
      (Reader.ReadUvarint ⟨.stream ⟨bs, c⟩⟩).2.1 = none := by
    intro bs c hok
    have h := StreamSrc_ReadUvarint_of_slice bs c
    refine ⟨?_, ?_⟩
    · simp only [Reader.ReadUvarint, Src.ReadUvarint]
      exact h.2.2 (by rw [hok]; exact Option.noConfusion)
    · simp only [Reader.ReadUvarint, Src.ReadUvarint]
      rw [h.1, hok]
  have hbytes : ∀ (bs : List Nat) (c : Nat) (v : List Nat),
      (Reader.ReadBytes ⟨.slice ⟨bs, 0⟩⟩).1 = .ok v →
      (Reader.ReadBytes ⟨.stream ⟨bs, c⟩⟩).1 = .ok v := by
    intro bs c v hok
    rcases hres : SliceSrc.ReadUvarint ⟨bs, 0⟩ with ⟨sz, err, st⟩
    have hbuf : st.buffer = bs := by
      have := SliceSrc_ReadUvarint_buffer bs 0
      rw [hres] at this
      exact this
    match err with
    | some e =>
      rw [Reader.ReadBytes] at hok
      simp only [Src.ReadUvarint, hres] at hok
      exact Except.noConfusion hok
    | none =>
      have hag := StreamSrc_ReadUvarint_of_slice bs c
      rw [hres] at hag
      simp only at hag
      have hstream : StreamSrc.ReadUvarint ⟨bs, c⟩ =
          (sz, none, ⟨bs.drop st.offset, c⟩) := by
        rcases hsr : StreamSrc.ReadUvarint ⟨bs, c⟩ with ⟨sz', err', st'⟩
        rw [hsr] at hag
        simp only at hag
        have h1 : err' = none := hag.1
        have h2 : st' = ⟨bs.drop st.offset, c⟩ := hag.2.1
        have h3 : sz' = sz := hag.2.2 (by exact Option.noConfusion)
        rw [h1, h2, h3]
      rw [Reader.ReadBytes] at hok ⊢
      simp only [Src.ReadUvarint, hres, hstream] at hok ⊢
      simp only [Src.ReadFull, SliceSrc.ReadFull, hbuf] at hok
      simp only [Src.ReadFull, StreamSrc.ReadFull]
      by_cases hsz : sz = 0
      · rw [if_pos hsz] at hok ⊢
        exact hok
      · rw [if_neg hsz] at hok ⊢
        by_cases havail : st.offset + sz ≤ bs.length
        · rw [if_pos havail] at hok
          rw [if_pos (by simp only [List.length_drop]; omega)]
          simpa [List.take_drop, List.drop_drop] using hok
        · rw [if_neg havail] at hok
          exact Except.noConfusion hok
  have hstream_slice : ∀ (bs : List Nat) (c n : Nat), n ≤ bs.length → n ≠ 0 →
      StreamSrc.Slice ⟨bs, c⟩ n =
        (.ok (bs.take n), ⟨bs.drop n, if c < n then capacityFor (n + 1) else c⟩) := by
    intro bs c n h hn
    simp only [StreamSrc.Slice]
    rw [if_neg hn, if_pos h]
  have hslice_slice : ∀ (bs : List Nat) (n : Nat), n ≤ bs.length →
      SliceSrc.Slice ⟨bs, 0⟩ n = (.ok (bs.take n), ⟨bs, n⟩) := by
    intro bs n h
    simp only [SliceSrc.Slice]
    rw [if_neg (by omega)]
    simp
  refine ⟨huv, ?_, ?_, ?_, ?_, ?_, ?_, hbytes, hbytes⟩
  · intro bs c hok
    have h := huv bs c hok
    simp only [Reader.ReadUvarint, Src.ReadUvarint] at h
    simp only [Reader.ReadVarint, Src.ReadVarint, SliceSrc.ReadVarint,
      StreamSrc.ReadVarint]
    exact ⟨by rw [h.1], h.2⟩
  · intro b rest c
    simp [Reader.ReadUint8, Src.ReadByte, SliceSrc.ReadByte, StreamSrc.ReadByte]
  · intro bs c hlen
    simp only [Reader.ReadUint16, Src.Slice,
      hstream_slice bs c 2 hlen (by norm_num), hslice_slice bs 2 hlen]
  · intro bs c hlen
    simp only [Reader.ReadUint32, Src.Slice,
      hstream_slice bs c 4 hlen (by norm_num), hslice_slice bs 4 hlen]
  · intro bs c hlen
    simp only [Reader.ReadUint64, Src.Slice,
      hstream_slice bs c 8 hlen (by norm_num), hslice_slice bs 8 hlen]
  · intro b rest c
    simp [Reader.ReadBool, Src.ReadByte, SliceSrc.ReadByte, StreamSrc.ReadByte]

/-- Witness for C4: concrete agreement of the two decoders. -/
theorem c4_slice_stream_equivalence_witness :
    ((Reader.ReadUvarint ⟨.stream ⟨[0x96, 0x01], 7⟩⟩).1 =
       (Reader.ReadUvarint ⟨.slice ⟨[0x96, 0x01], 0⟩⟩).1 ∧
     (Reader.ReadUvarint ⟨.stream ⟨[0x96, 0x01], 7⟩⟩).2.1 = none) ∧
    (Reader.ReadUint16 ⟨.stream ⟨[3, 4, 5], 0⟩⟩).1 =
      (Reader.ReadUint16 ⟨.slice ⟨[3, 4, 5], 0⟩⟩).1 ∧
    (Reader.ReadBytes ⟨.stream ⟨[2, 9, 8], 0⟩⟩).1 = .ok [9, 8] :=
  ⟨c4_slice_stream_equivalence.1 [0x96, 0x01] 7 (by decide),
   c4_slice_stream_equivalence.2.2.2.1 [3, 4, 5] 0 (by norm_num),
   c4_slice_stream_equivalence.2.2.2.2.2.2.2.1 [2, 9, 8] 0 [9, 8] (by rfl)⟩

/-! ### Scratch growth: `capacityFor` -/

theorem capacityFor_eq_orShift (v : Nat) :
    capacityFor v = orShift (orShift (orShift (orShift (orShift (v - 1) 1) 2) 4) 8) 16 + 1 :=
  rfl

theorem orShift_cov {w u cov : Nat} (d : Nat)
    (h : ∀ i, u.testBit i = true ↔ ∃ j, i ≤ j ∧ j ≤ i + cov ∧ w.testBit j = true)
    (hd : d ≤ cov + 1) :
    ∀ i, (orShift u d).testBit i = true ↔
      ∃ j, i ≤ j ∧ j ≤ i + (cov + d) ∧ w.testBit j = true := by
  intro i
  unfold orShift
  rw [Nat.testBit_or, Nat.testBit_shiftRight, Bool.or_eq_true]
  constructor
  · rintro (hbit | hbit)
    · obtain ⟨j, h1, h2, h3⟩ := (h i).mp hbit
      exact ⟨j, h1, by omega, h3⟩
    · obtain ⟨j, h1, h2, h3⟩ := (h (d + i)).mp hbit
      exact ⟨j, by omega, by omega, h3⟩
  · rintro ⟨j, hij, hjc, hbit⟩
    by_cases hj : j ≤ i + cov
    · exact Or.inl ((h i).mpr ⟨j, hij, hj, hbit⟩)
    · exact Or.inr ((h (d + i)).mpr ⟨j, by omega, by omega, hbit⟩)

theorem smear_spec (w : Nat) :
    ∀ i, (orShift (orShift (orShift (orShift (orShift w 1) 2) 4) 8) 16).testBit i = true ↔
      ∃ j, i ≤ j ∧ j ≤ i + 31 ∧ w.testBit j = true := by
  have h0 : ∀ i, w.testBit i = true ↔
      ∃ j, i ≤ j ∧ j ≤ i + 0 ∧ w.testBit j = true := by
    intro i
    constructor
    · exact fun hb => ⟨i, Nat.le_refl _, by omega, hb⟩
    · rintro ⟨j, h1, h2, h3⟩
      have : j = i := by omega
      subst this
      exact h3
  have h1 := orShift_cov 1 h0 (by norm_num)
  have h2 := orShift_cov 2 h1 (by norm_num)
  have h3 := orShift_cov 4 h2 (by norm_num)
  have h4 := orShift_cov 8 h3 (by norm_num)
  have h5 := orShift_cov 16 h4 (by norm_num)
  intro i
  have := h5 i
  norm_num at this
  exact this

theorem smear_eq_pow (w : Nat) (h1 : 1 ≤ w) (h2 : w < 2 ^ 32) :
    orShift (orShift (orShift (orShift (orShift w 1) 2) 4) 8) 16 =
      2 ^ (Nat.log 2 w + 1) - 1 := by
  apply Nat.eq_of_testBit_eq
  intro i
  rw [Nat.testBit_two_pow_sub_one]
  have hspec := smear_spec w i
  have hL31 : Nat.log 2 w ≤ 31 := by
    have := Nat.log_lt_of_lt_pow (b := 2) (by omega) h2
    omega
  have htop : w.testBit (Nat.log 2 w) = true := by
    have hle : 2 ^ Nat.log 2 w ≤ w := Nat.pow_log_le_self 2 (by omega)
    have hlt : w < 2 ^ (Nat.log 2 w + 1) := Nat.lt_pow_succ_log_self (by norm_num) w
    rw [Nat.testBit_to_div_mod]
    have hdiv : w / 2 ^ Nat.log 2 w = 1 := by
      have a1 : 1 ≤ w / 2 ^ Nat.log 2 w :=
        (Nat.one_le_div_iff (Nat.two_pow_pos _)).mpr hle
      have a2 : w / 2 ^ Nat.log 2 w < 2 := by
        rw [Nat.div_lt_iff_lt_mul (Nat.two_pow_pos _)]
        have : 2 ^ (Nat.log 2 w + 1) = 2 * 2 ^ Nat.log 2 w := by ring
        omega
      omega
    rw [hdiv]
    decide
  by_cases hi : i < Nat.log 2 w + 1
  · have hbit : (orShift (orShift (orShift (orShift (orShift w 1) 2) 4) 8) 16).testBit i =
        true := hspec.mpr ⟨Nat.log 2 w, by omega, by omega, htop⟩
    rw [hbit]
    exact (decide_eq_true hi).symm
  · have hbit : (orShift (orShift (orShift (orShift (orShift w 1) 2) 4) 8) 16).testBit i =
        false := by
      cases hb : (orShift (orShift (orShift (orShift (orShift w 1) 2) 4) 8) 16).testBit i
      · rfl
      · obtain ⟨j, hij, _, hbitj⟩ := hspec.mp hb
        have hwlt : w < 2 ^ j := by
          have hlt : w < 2 ^ (Nat.log 2 w + 1) := Nat.lt_pow_succ_log_self (by norm_num) w
          have : 2 ^ (Nat.log 2 w + 1) ≤ 2 ^ j :=
            Nat.pow_le_pow_right (by norm_num) (by omega)
          omega
        rw [Nat.testBit_lt_two_pow hwlt] at hbitj
        exact Bool.noConfusion hbitj
    rw [hbit]
    exact (decide_eq_false hi).symm

theorem capacityFor_isNextPow2Ge (v : Nat) (h1 : 1 ≤ v) (h2 : v ≤ 2 ^ 32) :
    IsNextPow2Ge (capacityFor v) v := by
  by_cases hv1 : v = 1
  · subst hv1
    refine ⟨⟨0, by rfl⟩, by decide, fun q hq hge => hge⟩
  · have hw1 : 1 ≤ v - 1 := by omega
    have hw2 : v - 1 < 2 ^ 32 := by omega
    have hcap : capacityFor v = 2 ^ (Nat.log 2 (v - 1) + 1) := by
      rw [capacityFor_eq_orShift, smear_eq_pow (v - 1) hw1 hw2]
      have : 1 ≤ 2 ^ (Nat.log 2 (v - 1) + 1) := Nat.one_le_two_pow
      omega
    rw [hcap]
    refine ⟨⟨Nat.log 2 (v - 1) + 1, rfl⟩, ?_, ?_⟩
    · have := Nat.lt_pow_succ_log_self (b := 2) (by norm_num) (v - 1)
      omega
    · rintro q ⟨k, rfl⟩ hge
      apply Nat.pow_le_pow_right (by norm_num)
      by_contra hk
      push_neg at hk
      have hqle : 2 ^ k ≤ 2 ^ Nat.log 2 (v - 1) :=
        Nat.pow_le_pow_right (by norm_num) (by omega)
      have := Nat.pow_log_le_self 2 (x := v - 1) (by omega)
      omega

theorem StreamSrc_Slice_scratchLen (s : StreamSrc) (n : Nat) :
    (StreamSrc.Slice s n).2.scratchLen =
      (if s.scratchLen < n then capacityFor (n + 1) else s.scratchLen) := by
  simp only [StreamSrc.Slice]
  by_cases h0 : n = 0
  · rw [if_pos h0]
  · rw [if_neg h0]
    by_cases hlen : n ≤ s.data.length
    · rw [if_pos hlen]
    · rw [if_neg hlen]

/-- Claim C7 as stated is false: for a requested size that is itself a power
of two (here `n = 4` on an empty scratch buffer) the code allocates
`capacityFor(n+1) = 8` bytes, not the next power of two greater than or
equal to `n`, which is 4. -/
theorem c7_counterexample_scratch_growth :
    (StreamSrc.Slice ⟨[0, 0, 0, 0], 0⟩ 4).2.scratchLen = 8 ∧
    IsNextPow2Ge 4 4 ∧
    ¬ IsNextPow2Ge ((StreamSrc.Slice ⟨[0, 0, 0, 0], 0⟩ 4).2.scratchLen) 4 := by
  have h8 : (StreamSrc.Slice ⟨[0, 0, 0, 0], 0⟩ 4).2.scratchLen = 8 := rfl
  refine ⟨h8, ⟨⟨2, rfl⟩, Nat.le_refl _, fun q _ h => h⟩, ?_⟩
  rw [h8]
  rintro ⟨_, _, hmin⟩
  have := hmin 4 ⟨2, rfl⟩ (Nat.le_refl _)
  omega

/-- Claim C7 (corrected): when `Slice(n)` is called with `n` greater than the
current scratch capacity (and `1 ≤ n`, `n + 1 ≤ 2^32`, within the range the
16-bit smear handles), the scratch buffer is reallocated to the next power of
two greater than or equal to `n + 1` — not `n` — and when `n` fits in the
current capacity the scratch buffer is left unchanged. -/
theorem c7_scratch_growth_next_pow2 (s : StreamSrc) (n : Nat)
    (h1 : 1 ≤ n) (h2 : n + 1 ≤ 2 ^ 32) :
    (s.scratchLen < n →
      IsNextPow2Ge ((StreamSrc.Slice s n).2.scratchLen) (n + 1)) ∧
    (n ≤ s.scratchLen →
      (StreamSrc.Slice s n).2.scratchLen = s.scratchLen) := by
  rw [StreamSrc_Slice_scratchLen]
  constructor
  · intro hlt
    rw [if_pos hlt]
    exact capacityFor_isNextPow2Ge (n + 1) (by omega) h2
  · intro hge
    rw [if_neg (by omega)]

/-- Witness for the corrected C7: growth at `n = 4` from an empty scratch
(result 8 is the least power of two at least 5), and no reallocation when the
scratch already holds 9 bytes. -/
theorem c7_scratch_growth_next_pow2_witness :
    IsNextPow2Ge ((StreamSrc.Slice ⟨[], 0⟩ 4).2.scratchLen) 5 ∧
    (StreamSrc.Slice ⟨[], 9⟩ 4).2.scratchLen = 9 :=
  ⟨(c7_scratch_growth_next_pow2 ⟨[], 0⟩ 4 (by norm_num) (by norm_num)).1 (by norm_num),
   (c7_scratch_growth_next_pow2 ⟨[], 9⟩ 4 (by norm_num) (by norm_num)).2 (by norm_num)⟩

end Iostream
